import Mathlib

/-!
Verification of the delegating lexer (`delegate.go`).

The delegating lexer combines a `language` lexer (which marks unrecognised
text with the `Other` token type) with a `root` lexer.  The algorithm:

1. run the language lexer on the whole text, collect the `Other` spans into
   a buffer and record the runs of language tokens as `insertion`s;
2. run the root lexer over the collected `Other` buffer (or, when there are
   no insertions, directly over the original text);
3. interleave the root tokens and the insertions, splitting root tokens at
   insertion boundaries.

The sub-tokenizers themselves are external collaborators; they are modelled
as parameters (functions from input text to either an error or a token
list, the shape produced by the library's token-collecting helper).  Go's
`nil`-iterator-on-error convention is modelled by `Except`; the Go slicing
operations that can panic on an out-of-range index are modelled by
`Option`, with `none` standing for a runtime panic.
-/

set_option linter.unusedVariables false

namespace Chroma

/-- Modelled from the spec: the token classification tag.  The Go
`TokenType` (defined outside this file) is an integer enumeration with a
distinguished zero value `EOFType` and a distinguished `Other` tag meaning
"unclassified, defer to the root tokenizer". -/
abbrev TokenType := Int

/-- Modelled from the spec: the tag of the `EOF` sentinel; the Go zero value. -/
def EOFType : TokenType := 0

/-- Modelled from the spec: the distinguished "unclassified" tag (any fixed
nonzero value works; the algorithm only ever compares tags for equality). -/
def Other : TokenType := 7000

/-- Modelled from the spec: a token is a pair of a classification tag and
the exact substring of text it covers.  Go strings are byte slices; values
are modelled as lists of characters. -/
structure Token where
  «Type» : TokenType
  Value : List Char
deriving DecidableEq

/-- Modelled from the spec: the `EOF` sentinel token, which carries no
text.  In Go this is the zero value `var EOF Token`, which is also the
initial value of the `last` variable in the extraction loop. -/
def EOF : Token := ⟨EOFType, []⟩

/-- Clone copies type and value (pure data, so the identity here). -/
def Token.Clone (t : Token) : Token := t

/-- An insertion is the character range where language tokens should be
inserted (`delegate.go`, lines 47-51).  `start`/`end` are Go `int`s. -/
structure insertion where
  start : Int
  «end» : Int
  tokens : List Token
deriving DecidableEq

/-- Concatenation of the values of a token list. -/
def concatVals : List Token → List Char
  | [] => []
  | t :: ts => t.Value ++ concatVals ts

/-- Summed length of the values of a token list. -/
def sumLen (ts : List Token) : Nat := (ts.map fun t => t.Value.length).sum

/-- The token-splitting helper `splitToken` (`delegate.go`, lines 175-190).  The Go code slices
`l.Value[:offset]` / `r.Value[offset:]`, which panics when `offset` is
outside `[0, len]`; the panic is modelled by `none`. -/
def splitToken (t : Token) (offset : Int) : Option (Token × Token) :=
  if t = EOF then some (EOF, EOF)
  else if offset = 0 then some (EOF, t)
  else if offset = (t.Value.length : Int) then some (t, EOF)
  else if 0 < offset ∧ offset < (t.Value.length : Int) then
    some ({ t.Clone with Value := t.Value.take offset.toNat },
          { t.Clone with Value := t.Value.drop offset.toNat })
  else none

/-- The `nextToken` closure of the interleaving loop: yields `EOF` once the
root-token cursor is exhausted (`delegate.go`, lines 132-139). -/
def nextTok : List Token → Token × List Token
  | [] => (EOF, [])
  | t :: rest => (t, rest)

/-- The `nextInsertion` closure: yields `nil` (here `none`) once the
insertion cursor is exhausted (`delegate.go`, lines 141-148). -/
def nextIns : List insertion → Option insertion × List insertion
  | [] => (none, [])
  | i :: rest => (some i, rest)

/-- The interleaving loop of `delegatingLexer.tokenise` (`delegate.go`,
lines 149-171), written as a recursive function over the loop state:
the current root token `t` (plus the not-yet-fetched `roots`), the current
insertion `i` (plus the not-yet-fetched `inss`), the original-text cursor
`offset` and the accumulated output `out`.  A `none` result models a Go
panic inside `splitToken`. -/
def interleave : Token → List Token → Option insertion → List insertion → Int → List Token →
    Option (List Token)
  | t, roots, some ins, inss, offset, out =>
    if h : t = EOF ∨ ins.start < offset + (t.Value.length : Int) then
      match splitToken t (ins.start - offset) with
      | none => none
      | some (l, t1) =>
        let out2 := (if l ≠ EOF then out ++ [l] else out) ++ ins.tokens
        let offset2 := (if l ≠ EOF then offset + (l.Value.length : Int) else offset) +
          (ins.«end» - ins.start)
        let tr := if t1 = EOF then nextTok roots else (t1, roots)
        interleave tr.1 tr.2 (nextIns inss).1 (nextIns inss).2 offset2 out2
    else
      interleave (nextTok roots).1 (nextTok roots).2 (some ins) inss
        (offset + (t.Value.length : Int)) (out ++ [t])
  | t, roots, none, inss, offset, out =>
    if h : t = EOF then some out
    else
      interleave (nextTok roots).1 (nextTok roots).2 none inss
        (offset + (t.Value.length : Int)) (out ++ [t])
termination_by t roots i inss offset out =>
  roots.length + (if t = EOF then 0 else 1) + 2 * inss.length +
    (if i.isSome then 2 else 0)
decreasing_by
  · by_cases ht1 : t1 = EOF <;> cases roots <;> cases inss <;>
      simp [nextTok, nextIns, ht1] <;> split_ifs <;> omega
  · push_neg at h
    cases roots <;> simp [nextTok, h.1] <;> split_ifs <;> omega
  · cases roots <;> simp [nextTok, h] <;> split_ifs <;> omega

/-- Modify the most recently created insertion, i.e. the last element of
the list.  In Go the loop keeps a pointer `insert` to that element and
mutates it in place; on the empty list the Go pointer would be `nil`
(the guarded branch checks `insert != nil`; the unguarded branch is
unreachable, see `extract_insertions_ne_nil_of_last`). -/
def modifyLast (f : insertion → insertion) : List insertion → List insertion
  | [] => []
  | [i] => [f i]
  | i :: rest => i :: modifyLast f rest

/-- The state of the extraction loop of `delegatingLexer.tokenise`
(`delegate.go`, lines 94-115): the `others` buffer, the insertion list,
the running original-text offset and the previously processed token. -/
structure DState where
  others : List Char
  insertions : List insertion
  offset : Int
  last : Token
deriving DecidableEq

/-- One iteration of the extraction loop (`delegate.go`, lines 100-115). -/
def extractStep (s : DState) (t : Token) : DState :=
  if t.«Type» = Other then
    { others := s.others ++ t.Value,
      insertions :=
        if s.last ≠ EOF ∧ s.insertions ≠ [] ∧ s.last.«Type» ≠ Other then
          modifyLast (fun ins => { ins with «end» := s.offset }) s.insertions
        else s.insertions,
      offset := s.offset + (t.Value.length : Int),
      last := t }
  else
    { others := s.others,
      insertions :=
        modifyLast (fun ins => { ins with tokens := ins.tokens ++ [t] })
          (if s.last = EOF ∨ s.last.«Type» = Other then
            s.insertions ++ [⟨s.offset, 0, []⟩]
          else s.insertions),
      offset := s.offset + (t.Value.length : Int),
      last := t }

/-- The whole extraction loop: fold `extractStep` over the language-lexer
tokens starting from the zero state (`others` empty, no insertions,
`offset = 0`, `last` the zero-value token, i.e. `EOF`). -/
def extract (tokens : List Token) : DState :=
  tokens.foldl extractStep ⟨[], [], 0, EOF⟩

/-- Errors are Go `error` values; modelled as strings. -/
abbrev Err := String

/-- The error built at `delegate.go`, line 75, when the root lexer does not
implement the `TokeniserWithOriginalLen` capability. -/
def unsupportedCapabilityMsg : Err := "lexer does not support tokenizing with offsets"

/-- Modelled from the spec: the original-length mapping returned by the
length-preserving entry point.  Its contents are produced by the external
sub-tokenizers and never inspected by `delegate.go`, so it is an opaque
record; the Go zero value `OriginalLenIterator{}` is `empty`. -/
structure OriginalLenIterator where
  lens : List Nat
deriving DecidableEq

def OriginalLenIterator.empty : OriginalLenIterator := ⟨[]⟩

/-- The shared core `delegatingLexer.tokenise` (`delegate.go`, lines 89-173).  The two
sub-tokenizer invocations are parameters:
* `tokeniseFn` models `tokeniseFn(Coalesce(d.language), options, text)`;
* `tokenizeRootFn` models `tokenizeRootFn(options, text)` (the fast path);
* `rootCoalesced` models `Tokenise(Coalesce(d.root), options, ·)`
  (the root pass over the `Other` buffer, line 123).
A `none` result models a Go panic in the interleaving loop. -/
def tokeniseCore
    (tokeniseFn : List Char → Except Err (List Token × OriginalLenIterator))
    (tokenizeRootFn : List Char → Except Err (List Token × OriginalLenIterator))
    (rootCoalesced : List Char → Except Err (List Token))
    (text : List Char) : Option (Except Err (List Token × OriginalLenIterator)) :=
  match tokeniseFn text with
  | .error e => some (.error e)
  | .ok (tokens, offsetIter) =>
    let s := extract tokens
    if s.insertions = [] then some (tokenizeRootFn text)
    else
      match rootCoalesced s.others with
      | .error e => some (.error e)
      | .ok rootTokens =>
        (interleave (nextTok rootTokens).1 (nextTok rootTokens).2
            (nextIns s.insertions).1 (nextIns s.insertions).2 0 []).map
          fun out => .ok (out, offsetIter)

/-- The plain entry point `delegatingLexer.Tokenise` (`delegate.go`, lines 53-66): the plain
entry point; `langLex` models `Tokenise(Coalesce(d.language), options, ·)`,
`rootCoalesced` models `Tokenise(Coalesce(d.root), options, ·)` and
`rootPlain` models `d.root.Tokenise(options, ·)`.  The returned
`OriginalLenIterator` is discarded. -/
def dTokenise (langLex rootCoalesced rootPlain : List Char → Except Err (List Token))
    (text : List Char) : Option (Except Err (List Token)) :=
  (tokeniseCore
      (fun txt => (langLex txt).map fun ts => (ts, OriginalLenIterator.empty))
      (fun txt => (rootPlain txt).map fun ts => (ts, OriginalLenIterator.empty))
      rootCoalesced text).map
    fun r => r.map fun p => p.1

/-- The length-preserving entry point `delegatingLexer.TokeniseWithOriginalLen` (`delegate.go`, lines 68-84):
the length-preserving entry point.  `rootWOL` is `some f` exactly when the
root lexer implements the `TokeniserWithOriginalLen` capability (the Go
type assertion at line 72); otherwise the root path fails with the
capability error built at line 75. -/
def dTokeniseWithOriginalLen
    (langLexWOL : List Char → Except Err (List Token × OriginalLenIterator))
    (rootCoalesced : List Char → Except Err (List Token))
    (rootWOL : Option (List Char → Except Err (List Token × OriginalLenIterator)))
    (text : List Char) : Option (Except Err (List Token × OriginalLenIterator)) :=
  tokeniseCore langLexWOL
    (fun txt =>
      match rootWOL with
      | none => .error unsupportedCapabilityMsg
      | some f => f txt)
    rootCoalesced text

/-- The `delegatingLexer` wrapper holds a root and a language sub-lexer
(`delegate.go`, lines 8-11).  Concrete lexers are external collaborators,
so the wrapper is polymorphic in the sub-lexer type. -/
structure delegatingLexer (L : Type) where
  root : L
  language : L

/-- The capability interface used by the wrapper methods (modelled from the
spec, §6): text-analysis scoring, analyser/registry injection and
configuration reporting, each an operation on the sub-lexer type. -/
structure LexerOps (L Score Analyser Registry Config : Type) where
  analyseText : L → List Char → Score
  setAnalyser : L → Analyser → L
  setRegistry : L → Registry → L
  config : L → Config

variable {L Score Analyser Registry Cfg : Type}

/-- Method `delegatingLexer.AnalyseText` (`delegate.go`, lines 28-30). -/
def delegatingLexer.AnalyseText (ops : LexerOps L Score Analyser Registry Cfg)
    (d : delegatingLexer L) (text : List Char) : Score :=
  ops.analyseText d.root text

/-- Method `delegatingLexer.SetAnalyser` (`delegate.go`, lines 32-35): injects the
analyser into the root lexer and returns the wrapper itself. -/
def delegatingLexer.SetAnalyser (ops : LexerOps L Score Analyser Registry Cfg)
    (d : delegatingLexer L) (analyser : Analyser) : delegatingLexer L :=
  { d with root := ops.setAnalyser d.root analyser }

/-- Method `delegatingLexer.SetRegistry` (`delegate.go`, lines 37-41): injects the
registry into both sub-lexers and returns the wrapper itself. -/
def delegatingLexer.SetRegistry (ops : LexerOps L Score Analyser Registry Cfg)
    (d : delegatingLexer L) (r : Registry) : delegatingLexer L :=
  { root := ops.setRegistry d.root r, language := ops.setRegistry d.language r }

/-- Method `delegatingLexer.Config` (`delegate.go`, lines 43-45). -/
def delegatingLexer.Config (ops : LexerOps L Score Analyser Registry Cfg)
    (d : delegatingLexer L) : Cfg :=
  ops.config d.language

/-! ### Basic lemmas about the token-list helpers -/

theorem concatVals_append (a b : List Token) :
    concatVals (a ++ b) = concatVals a ++ concatVals b := by
  induction a with
  | nil => simp [concatVals]
  | cons t ts ih => simp [concatVals, ih]

theorem sumLen_cons (t : Token) (ts : List Token) :
    sumLen (t :: ts) = t.Value.length + sumLen ts := by
  simp [sumLen]

theorem sumLen_append (a b : List Token) : sumLen (a ++ b) = sumLen a + sumLen b := by
  simp [sumLen]

theorem length_concatVals (ts : List Token) : (concatVals ts).length = sumLen ts := by
  induction ts with
  | nil => simp [concatVals, sumLen]
  | cons t ts ih => simp [concatVals, sumLen_cons, ih]

theorem modifyLast_cons_of_ne_nil (f : insertion → insertion) (i : insertion)
    (l : List insertion) (h : l ≠ []) :
    modifyLast f (i :: l) = i :: modifyLast f l := by
  cases l with
  | nil => exact absurd rfl h
  | cons b l' => simp [modifyLast]

theorem modifyLast_concat (f : insertion → insertion) (l : List insertion) (x : insertion) :
    modifyLast f (l ++ [x]) = l ++ [f x] := by
  induction l with
  | nil => simp [modifyLast]
  | cons a l ih =>
    rw [List.cons_append, modifyLast_cons_of_ne_nil f a (l ++ [x]) (by simp), ih]
    simp

theorem length_modifyLast (f : insertion → insertion) (l : List insertion) :
    (modifyLast f l).length = l.length := by
  induction l with
  | nil => simp [modifyLast]
  | cons a l ih =>
    cases l with
    | nil => simp [modifyLast]
    | cons b l' => rw [modifyLast_cons_of_ne_nil f a (b :: l') (by simp)]; simp_all

theorem modifyLast_forall {P : insertion → Prop} (f : insertion → insertion)
    (hf : ∀ i, P i → P (f i)) :
    ∀ l : List insertion, (∀ i ∈ l, P i) → ∀ i ∈ modifyLast f l, P i := by
  intro l
  induction l with
  | nil => simp [modifyLast]
  | cons a l ih =>
    intro h j hj
    cases l with
    | nil =>
      simp [modifyLast] at hj
      subst hj
      exact hf a (h a (by simp))
    | cons b l' =>
      rw [modifyLast_cons_of_ne_nil f a (b :: l') (by simp)] at hj
      rcases List.mem_cons.mp hj with h1 | h2
      · rw [h1]
        exact h a (by simp)
      · exact ih (fun k hk => h k (List.mem_cons_of_mem _ hk)) j h2

theorem map_modifyLast {α : Type} (g : insertion → α) (f : insertion → insertion)
    (hf : ∀ i, g (f i) = g i) :
    ∀ l : List insertion, (modifyLast f l).map g = l.map g := by
  intro l
  induction l with
  | nil => simp [modifyLast]
  | cons a l ih =>
    cases l with
    | nil => simp [modifyLast, hf]
    | cons b l' =>
      rw [modifyLast_cons_of_ne_nil f a (b :: l') (by simp)]
      simp_all

/-! ### The coverage relation between the Other buffer, the insertion list
and the original text

`Covers o offset I rem flag` states that the original-text suffix `rem`,
whose first character sits at original offset `offset`, decomposes into the
Other-buffer suffix `o` with the insertions `I` spliced in at their `start`
offsets.  When `flag = true` every insertion is closed, i.e. its `end`
equals `start` plus the summed length of its tokens; when `flag = false`
the extraction loop is still inside the final language run, so the last
insertion has its zero-value `end = 0` and nothing of `o` or `rem` follows
it.  This is exactly the shape the extraction loop produces. -/
def Covers : List Char → Int → List insertion → List Char → Bool → Prop
  | o, _, [], rem, flag => o = rem ∧ flag = true
  | o, offset, ins :: rest, rem, flag =>
    ∃ g : Nat, ∃ rem' : List Char,
      ins.start = offset + (g : Int) ∧ g ≤ o.length ∧
      rem = o.take g ++ concatVals ins.tokens ++ rem' ∧
      ((flag = false ∧ rest = [] ∧ ins.«end» = 0 ∧ o.drop g = [] ∧ rem' = []) ∨
       (ins.«end» = ins.start + (sumLen ins.tokens : Int) ∧
        Covers (o.drop g) ins.«end» rest rem' flag))

theorem Covers_nil_iff (o : List Char) (offset : Int) (rem : List Char) (flag : Bool) :
    Covers o offset [] rem flag ↔ o = rem ∧ flag = true := Iff.rfl

theorem Covers_false_ne_nil {o : List Char} {offset : Int} {I : List insertion}
    {rem : List Char} (h : Covers o offset I rem false) : I ≠ [] := by
  cases I with
  | nil => exact absurd h.2 (by simp)
  | cons a l => simp

/-- Appending text that belongs after every insertion (all closed). -/
theorem Covers_append_true (v : List Char) :
    ∀ (I : List insertion) (o : List Char) (off : Int) (rem : List Char),
      Covers o off I rem true → Covers (o ++ v) off I (rem ++ v) true := by
  intro I
  induction I with
  | nil =>
    intro o off rem h
    exact ⟨by rw [h.1], rfl⟩
  | cons ins rest ih =>
    intro o off rem h
    obtain ⟨g, rem', hstart, hg, hrem, hrest⟩ := h
    rcases hrest with ⟨hf, -⟩ | ⟨hend, hcov⟩
    · simp at hf
    · refine ⟨g, rem' ++ v, hstart, by simp; omega, ?_, Or.inr ⟨hend, ?_⟩⟩
      · rw [hrem, List.take_append_of_le_length hg]
        simp
      · rw [List.drop_append_of_le_length hg]
        exact ih (o.drop g) ins.«end» rem' hcov

/-- Closing the open final insertion (its `end` is set to the total length
of the text seen so far) and then appending Other text. -/
theorem Covers_close (v : List Char) (E : Int) :
    ∀ (I : List insertion) (o : List Char) (off : Int) (rem : List Char),
      Covers o off I rem false → E = off + (rem.length : Int) →
      Covers (o ++ v) off (modifyLast (fun ins => { ins with «end» := E }) I)
        (rem ++ v) true := by
  intro I
  induction I with
  | nil =>
    intro o off rem h hE
    exact absurd h.2 (by simp)
  | cons ins rest ih =>
    intro o off rem h hE
    obtain ⟨g, rem', hstart, hg, hrem, hrest⟩ := h
    rcases hrest with ⟨-, hrest0, hend, hdrop, hrem'⟩ | ⟨hend, hcov⟩
    · subst hrest0
      have hlen : rem.length = g + sumLen ins.tokens := by
        rw [hrem, hrem']
        simp [List.length_take, length_concatVals]
        omega
      simp only [modifyLast]
      refine ⟨g, v, hstart, by simp; omega, ?_, Or.inr ⟨?_, ?_⟩⟩
      · rw [hrem, List.take_append_of_le_length hg, hrem']
        simp
      · show E = ins.start + (sumLen ins.tokens : Int)
        rw [hE, hstart]
        push_cast [hlen]
        ring
      · rw [List.drop_append_of_le_length hg, hdrop]
        exact ⟨rfl, rfl⟩
    · cases rest with
      | nil =>
        exact absurd hcov.2 (by simp [Covers])
      | cons b rest' =>
        rw [modifyLast_cons_of_ne_nil _ ins (b :: rest') (by simp)]
        have hE' : E = ins.«end» + (rem'.length : Int) := by
          rw [hE, hrem, hend, hstart]
          have hl : (o.take g).length = g := by
            simp [List.length_take]
            omega
          push_cast [List.length_append, hl, length_concatVals]
          ring
        refine ⟨g, rem' ++ v, hstart, by simp; omega, ?_, Or.inr ⟨hend, ?_⟩⟩
        · rw [hrem, List.take_append_of_le_length hg]
          simp
        · rw [List.drop_append_of_le_length hg]
          exact ih (o.drop g) ins.«end» rem' hcov hE'

/-- Opening a new insertion at the current end of the text with a single
language token. -/
theorem Covers_new (tk : Token) :
    ∀ (I : List insertion) (o : List Char) (off : Int) (rem : List Char),
      Covers o off I rem true →
      Covers o off (I ++ [⟨off + (rem.length : Int), 0, [tk]⟩]) (rem ++ tk.Value) false := by
  intro I
  induction I with
  | nil =>
    intro o off rem h
    obtain ⟨ho, -⟩ := h
    subst ho
    rw [List.nil_append]
    refine ⟨o.length, [], by simp, le_refl _, ?_, Or.inl ⟨rfl, rfl, rfl, by simp, rfl⟩⟩
    simp [concatVals]
  | cons ins rest ih =>
    intro o off rem h
    obtain ⟨g, rem', hstart, hg, hrem, hrest⟩ := h
    rcases hrest with ⟨hf, -⟩ | ⟨hend, hcov⟩
    · simp at hf
    · have hE' : off + (rem.length : Int) = ins.«end» + (rem'.length : Int) := by
        rw [hrem, hend, hstart]
        have hl : (o.take g).length = g := by
          simp [List.length_take]
          omega
        push_cast [List.length_append, hl, length_concatVals]
        ring
      rw [List.cons_append]
      refine ⟨g, rem' ++ tk.Value, hstart, hg, ?_, Or.inr ⟨hend, ?_⟩⟩
      · rw [hrem]
        simp
      · rw [hE']
        exact ih (o.drop g) ins.«end» rem' hcov

/-- Appending one more language token to the still-open final insertion. -/
theorem Covers_push (tk : Token) :
    ∀ (I : List insertion) (o : List Char) (off : Int) (rem : List Char),
      Covers o off I rem false →
      Covers o off (modifyLast (fun ins => { ins with tokens := ins.tokens ++ [tk] }) I)
        (rem ++ tk.Value) false := by
  intro I
  induction I with
  | nil =>
    intro o off rem h
    exact absurd h.2 (by simp)
  | cons ins rest ih =>
    intro o off rem h
    obtain ⟨g, rem', hstart, hg, hrem, hrest⟩ := h
    rcases hrest with ⟨-, hrest0, hend, hdrop, hrem'⟩ | ⟨hend, hcov⟩
    · subst hrest0
      simp only [modifyLast]
      refine ⟨g, [], hstart, hg, ?_, Or.inl ⟨rfl, rfl, hend, hdrop, rfl⟩⟩
      rw [hrem, hrem']
      simp [concatVals_append, concatVals]
    · cases rest with
      | nil =>
        exact absurd hcov.2 (by simp [Covers])
      | cons b rest' =>
        rw [modifyLast_cons_of_ne_nil _ ins (b :: rest') (by simp)]
        refine ⟨g, rem' ++ tk.Value, hstart, hg, ?_, Or.inr ⟨hend, ?_⟩⟩
        · rw [hrem]
          simp
        · exact ih (o.drop g) ins.«end» rem' hcov

/-! ### The extraction-loop invariant -/

/-- The invariant of the extraction loop (`delegate.go`, lines 94-115),
relating the loop state to the text processed so far.  The three-way split
mirrors the loop's use of `last`: before the first token (`last` is the
zero value `EOF`), after an `Other` token (every insertion closed), and
inside a language run (the final insertion still open). -/
structure EInv (s : DState) (text : List Char) : Prop where
  off_eq : s.offset = (text.length : Int)
  sorted : List.Pairwise (· ≤ ·) (s.insertions.map insertion.start)
  bounded : ∀ ins ∈ s.insertions, 0 ≤ ins.start ∧ ins.start ≤ s.offset
  toksOk : ∀ ins ∈ s.insertions, ∀ tk ∈ ins.tokens, tk ≠ EOF ∧ tk.«Type» ≠ Other
  split3 :
    (s.last = EOF ∧ s.insertions = [] ∧ s.others = text) ∨
    (s.last ≠ EOF ∧ s.last.«Type» = Other ∧ Covers s.others 0 s.insertions text true) ∨
    (s.last ≠ EOF ∧ s.last.«Type» ≠ Other ∧ Covers s.others 0 s.insertions text false)

theorem EInv_init : EInv ⟨[], [], 0, EOF⟩ [] := by
  refine ⟨rfl, by simp, by simp, by simp, Or.inl ⟨rfl, rfl, rfl⟩⟩

theorem EInv_step {s : DState} {text : List Char} (t : Token) (ht : t ≠ EOF)
    (h : EInv s text) : EInv (extractStep s t) (text ++ t.Value) := by
  have hoff : (0 : Int) ≤ s.offset := by
    rw [h.off_eq]
    positivity
  have hvlen : (0 : Int) ≤ (t.Value.length : Int) := by positivity
  by_cases hty : t.«Type» = Other
  · -- the current token is Other
    have htE : t ≠ EOF := ht
    rcases h.split3 with ⟨hl, hi, ho⟩ | ⟨hl, hlt, hcov⟩ | ⟨hl, hlt, hcov⟩
    · -- initial state: nothing processed yet, no close
      have hg : ¬(s.last ≠ EOF ∧ s.insertions ≠ [] ∧ s.last.«Type» ≠ Other) := by
        simp [hl]
      refine ⟨?_, ?_, ?_, ?_, ?_⟩ <;> simp only [extractStep, if_pos hty, if_neg hg]
      · rw [h.off_eq]
        push_cast
        simp
      · exact h.sorted
      · intro ins hins
        obtain ⟨h0, h1⟩ := h.bounded ins hins
        exact ⟨h0, by omega⟩
      · exact h.toksOk
      · refine Or.inr (Or.inl ⟨htE, hty, ?_⟩)
        rw [hi, ho]
        exact ⟨rfl, rfl⟩
    · -- previous token was Other: no close
      have hg : ¬(s.last ≠ EOF ∧ s.insertions ≠ [] ∧ s.last.«Type» ≠ Other) := by
        simp [hlt]
      refine ⟨?_, ?_, ?_, ?_, ?_⟩ <;> simp only [extractStep, if_pos hty, if_neg hg]
      · rw [h.off_eq]
        push_cast
        simp
      · exact h.sorted
      · intro ins hins
        obtain ⟨h0, h1⟩ := h.bounded ins hins
        exact ⟨h0, by omega⟩
      · exact h.toksOk
      · exact Or.inr (Or.inl ⟨htE, hty, Covers_append_true t.Value _ _ _ _ hcov⟩)
    · -- previous token was a language token: close the open insertion
      have hne := Covers_false_ne_nil hcov
      have hg : s.last ≠ EOF ∧ s.insertions ≠ [] ∧ s.last.«Type» ≠ Other := ⟨hl, hne, hlt⟩
      refine ⟨?_, ?_, ?_, ?_, ?_⟩ <;> simp only [extractStep, if_pos hty, if_pos hg]
      · rw [h.off_eq]
        push_cast
        simp
      · rw [map_modifyLast insertion.start
          (fun ins => { ins with «end» := s.offset }) (fun i => rfl)]
        exact h.sorted
      · intro ins hins
        have hb := modifyLast_forall (P := fun i => 0 ≤ i.start ∧ i.start ≤ s.offset)
          (fun ins => { ins with «end» := s.offset })
          (fun i hi => hi) s.insertions h.bounded ins hins
        exact ⟨hb.1, by omega⟩
      · exact modifyLast_forall (fun ins => { ins with «end» := s.offset })
          (fun i hi => hi) s.insertions h.toksOk
      · refine Or.inr (Or.inl ⟨htE, hty, ?_⟩)
        have := Covers_close t.Value s.offset s.insertions s.others 0 text hcov
          (by rw [h.off_eq]; ring)
        exact this
  · -- the current token is a language token
    rcases h.split3 with ⟨hl, hi, ho⟩ | ⟨hl, hlt, hcov⟩ | ⟨hl, hlt, hcov⟩
    · -- initial state: open the first insertion
      have hg : s.last = EOF ∨ s.last.«Type» = Other := Or.inl hl
      refine ⟨?_, ?_, ?_, ?_, ?_⟩ <;>
        simp only [extractStep, if_neg hty, if_pos hg, hi, List.nil_append,
          modifyLast_concat, modifyLast]
      · rw [h.off_eq]
        push_cast
        simp
      · simp
      · intro ins hins
        simp at hins
        subst hins
        refine ⟨hoff, ?_⟩
        show s.offset ≤ s.offset + (t.Value.length : Int)
        omega
      · intro ins hins
        simp at hins
        subst hins
        intro tk htk
        simp at htk
        subst htk
        exact ⟨ht, hty⟩
      · refine Or.inr (Or.inr ⟨ht, hty, ?_⟩)
        have := Covers_new t [] s.others 0 text (by rw [ho]; exact ⟨rfl, rfl⟩)
        rw [List.nil_append] at this
        have heq : (⟨0 + (text.length : Int), 0, [t]⟩ : insertion) =
            ⟨s.offset, 0, [] ++ [t]⟩ := by
          rw [h.off_eq]
          simp
        rwa [heq] at this
    · -- previous token was Other: open a new insertion
      have hg : s.last = EOF ∨ s.last.«Type» = Other := Or.inr hlt
      refine ⟨?_, ?_, ?_, ?_, ?_⟩ <;>
        simp only [extractStep, if_neg hty, if_pos hg, modifyLast_concat]
      · rw [h.off_eq]
        push_cast
        simp
      · rw [List.map_append]
        rw [List.pairwise_append]
        refine ⟨h.sorted, by simp, ?_⟩
        intro a ha b hb
        simp at hb
        subst hb
        obtain ⟨ins, hins, rfl⟩ := List.mem_map.mp ha
        exact (h.bounded ins hins).2
      · intro ins hins
        rcases List.mem_append.mp hins with hm | hm
        · obtain ⟨h0, h1⟩ := h.bounded ins hm
          exact ⟨h0, by omega⟩
        · simp at hm
          subst hm
          refine ⟨hoff, ?_⟩
          show s.offset ≤ s.offset + (t.Value.length : Int)
          omega
      · intro ins hins
        rcases List.mem_append.mp hins with hm | hm
        · exact h.toksOk ins hm
        · simp at hm
          subst hm
          intro tk htk
          simp at htk
          subst htk
          exact ⟨ht, hty⟩
      · refine Or.inr (Or.inr ⟨ht, hty, ?_⟩)
        have := Covers_new t s.insertions s.others 0 text hcov
        have heq : (⟨0 + (text.length : Int), 0, [t]⟩ : insertion) =
            ⟨s.offset, 0, [] ++ [t]⟩ := by
          rw [h.off_eq]
          simp
        rwa [heq] at this
    · -- inside a language run: append to the open insertion
      have hg : ¬(s.last = EOF ∨ s.last.«Type» = Other) := by
        simp [hl, hlt]
      refine ⟨?_, ?_, ?_, ?_, ?_⟩ <;> simp only [extractStep, if_neg hty, if_neg hg]
      · rw [h.off_eq]
        push_cast
        simp
      · rw [map_modifyLast insertion.start
          (fun ins => { ins with tokens := ins.tokens ++ [t] }) (fun i => rfl)]
        exact h.sorted
      · intro ins hins
        have hb := modifyLast_forall (P := fun i => 0 ≤ i.start ∧ i.start ≤ s.offset)
          (fun ins => { ins with tokens := ins.tokens ++ [t] })
          (fun i hi => hi) s.insertions h.bounded ins hins
        exact ⟨hb.1, by omega⟩
      · refine modifyLast_forall (fun ins => { ins with tokens := ins.tokens ++ [t] })
          ?_ s.insertions h.toksOk
        intro i hi tk htk
        rcases List.mem_append.mp htk with hm | hm
        · exact hi tk hm
        · simp at hm
          subst hm
          exact ⟨ht, hty⟩
      · exact Or.inr (Or.inr ⟨ht, hty, Covers_push t s.insertions s.others 0 text hcov⟩)

theorem EInv_fold :
    ∀ (toks : List Token) (s : DState) (text : List Char),
      EInv s text → (∀ tk ∈ toks, tk ≠ EOF) →
      EInv (toks.foldl extractStep s) (text ++ concatVals toks) := by
  intro toks
  induction toks with
  | nil =>
    intro s text h _
    simpa [concatVals] using h
  | cons t ts ih =>
    intro s text h hE
    rw [List.foldl_cons]
    have h1 := EInv_step t (hE t (by simp)) h
    have h2 := ih (extractStep s t) (text ++ t.Value) h1 (fun tk htk => hE tk (by simp [htk]))
    simpa [concatVals, List.append_assoc] using h2

/-- The extraction invariant holds of `extract`, anchored at offset `0`
over the full text (the concatenation of the language-lexer tokens). -/
theorem extract_EInv (toks : List Token) (hE : ∀ tk ∈ toks, tk ≠ EOF) :
    EInv (extract toks) (concatVals toks) := by
  have := EInv_fold toks ⟨[], [], 0, EOF⟩ [] EInv_init hE
  simpa [extract] using this

/-! ### Helper lemmas for the interleaving loop -/

/-- The pending insertions of an interleaver state: the current one (if
any) followed by the not-yet-fetched ones. -/
def optList : Option insertion → List insertion → List insertion
  | none, _ => []
  | some i, l => i :: l

theorem optList_nextIns (l : List insertion) :
    optList (nextIns l).1 (nextIns l).2 = l := by
  cases l <;> rfl

theorem nextIns_none (l : List insertion) : (nextIns l).1 = none → (nextIns l).2 = [] := by
  cases l <;> simp [nextIns]

theorem nextTok_val (roots : List Token) :
    (nextTok roots).1.Value ++ concatVals (nextTok roots).2 = concatVals roots := by
  cases roots <;> simp [nextTok, concatVals, EOF, EOFType]

theorem nextTok_eof {roots : List Token} (h : EOF ∉ roots) :
    (nextTok roots).1 = EOF → (nextTok roots).2 = [] := by
  cases roots with
  | nil => simp [nextTok]
  | cons x r =>
    intro hx
    simp [nextTok] at hx
    exact absurd (hx ▸ List.mem_cons_self x r) h

theorem nextTok_not_mem {roots : List Token} (h : EOF ∉ roots) :
    EOF ∉ (nextTok roots).2 := by
  cases roots with
  | nil => simp [nextTok]
  | cons x r =>
    intro hc
    exact h (List.mem_cons_of_mem _ hc)

theorem EOF_Type_ne_Other : EOF.«Type» ≠ Other := by decide

theorem EOF_Value : EOF.Value = [] := rfl

theorem splitToken_EOF (off : Int) : splitToken EOF off = some (EOF, EOF) := by
  simp [splitToken]

theorem splitToken_zero {t : Token} (h : t ≠ EOF) : splitToken t 0 = some (EOF, t) := by
  simp [splitToken, h]

theorem splitToken_interior {t : Token} {g : Nat} (h : t ≠ EOF) (h0 : 0 < g)
    (hlen : g < t.Value.length) :
    splitToken t (g : Int) = some
      (⟨t.«Type», t.Value.take g⟩, ⟨t.«Type», t.Value.drop g⟩) := by
  have h1 : ¬((g : Int) = 0) := by omega
  have h2 : ¬((g : Int) = (t.Value.length : Int)) := by omega
  have h3 : (0 : Int) < (g : Int) ∧ (g : Int) < (t.Value.length : Int) := by omega
  simp only [splitToken, if_neg h, if_neg h1, if_neg h2, if_pos h3]
  simp [Token.Clone]

/-- The interleaving loop only ever appends to `out` the left split part
(explicitly guarded to differ from `EOF`), insertion tokens, and the
current root token in the branch where it is not `EOF`: the `EOF` sentinel
itself is never appended. -/
theorem interleave_no_EOF (t : Token) (roots : List Token) (i : Option insertion)
    (inss : List insertion) (offset : Int) (out : List Token) :
    ∀ res : List Token,
      (∀ ins' ∈ optList i inss, ∀ tk ∈ ins'.tokens, tk ≠ EOF) →
      (∀ x ∈ out, x ≠ EOF) →
      interleave t roots i inss offset out = some res →
      ∀ x ∈ res, x ≠ EOF := by
  induction t, roots, i, inss, offset, out using interleave.induct with
  | case1 t roots ins inss offset out h hsp =>
    intro res hins hout heq
    rw [interleave] at heq
    rw [dif_pos h, hsp] at heq
    exact absurd heq (by simp)
  | case2 t roots ins inss offset out h l t1 hsp out2 offset2 tr ih =>
    intro res hins hout heq
    rw [interleave] at heq
    rw [dif_pos h, hsp] at heq
    refine ih res ?_ ?_ heq
    · rw [optList_nextIns]
      intro ins' hi tk htk
      exact hins ins' (List.mem_cons_of_mem _ hi) tk htk
    · intro x hx
      rcases List.mem_append.mp hx with hx | hx
      · by_cases hl : l ≠ EOF
        · rw [dif_pos hl] at hx
          rcases List.mem_append.mp hx with hx | hx
          · exact hout x hx
          · simp at hx
            rw [hx]
            exact hl
        · rw [dif_neg hl] at hx
          exact hout x hx
      · exact hins ins (List.mem_cons_self _ _) x hx
  | case3 t roots ins inss offset out h ih =>
    intro res hins hout heq
    rw [interleave] at heq
    rw [dif_neg h] at heq
    push_neg at h
    refine ih res hins ?_ heq
    intro x hx
    rcases List.mem_append.mp hx with hx | hx
    · exact hout x hx
    · simp at hx
      rw [hx]
      exact h.1
  | case4 roots inss offset out =>
    intro res hins hout heq
    rw [interleave] at heq
    simp at heq
    rw [← heq]
    exact hout
  | case5 t roots inss offset out h ih =>
    intro res hins hout heq
    rw [interleave] at heq
    rw [dif_neg h] at heq
    refine ih res hins ?_ heq
    intro x hx
    rcases List.mem_append.mp hx with hx | hx
    · exact hout x hx
    · simp at hx
      rw [hx]
      exact h

/-- Every token the interleaving loop appends has the type of a root token
(split parts keep the type of the token they were cut from) or is an
insertion token: the loop invents no token types.  In particular, if no
root token and no insertion token has type `Other`, neither does any
output token. -/
theorem interleave_no_Other (t : Token) (roots : List Token) (i : Option insertion)
    (inss : List insertion) (offset : Int) (out : List Token) :
    ∀ res : List Token,
      (∀ ins' ∈ optList i inss, ∀ tk ∈ ins'.tokens, tk.«Type» ≠ Other) →
      t.«Type» ≠ Other →
      (∀ x ∈ roots, x.«Type» ≠ Other) →
      (∀ x ∈ out, x.«Type» ≠ Other) →
      interleave t roots i inss offset out = some res →
      ∀ x ∈ res, x.«Type» ≠ Other := by
  induction t, roots, i, inss, offset, out using interleave.induct with
  | case1 t roots ins inss offset out h hsp =>
    intro res hins ht hroots hout heq
    rw [interleave] at heq
    rw [dif_pos h, hsp] at heq
    exact absurd heq (by simp)
  | case2 t roots ins inss offset out h l t1 hsp out2 offset2 tr ih =>
    intro res hins ht hroots hout heq
    rw [interleave] at heq
    rw [dif_pos h, hsp] at heq
    have hlt : l.«Type» ≠ Other ∧ t1.«Type» ≠ Other := by
      unfold splitToken at hsp
      split_ifs at hsp with h1 h2 h3 h4 <;> simp at hsp <;>
        obtain ⟨hl, ht1⟩ := hsp
      · rw [← hl, ← ht1]
        exact ⟨EOF_Type_ne_Other, EOF_Type_ne_Other⟩
      · rw [← hl, ← ht1]
        exact ⟨EOF_Type_ne_Other, ht⟩
      · rw [← hl, ← ht1]
        exact ⟨ht, EOF_Type_ne_Other⟩
      · rw [← hl, ← ht1]
        exact ⟨ht, ht⟩
    have htr : (if h : t1 = EOF then nextTok roots else (t1, roots)).1.«Type» ≠ Other ∧
        ∀ x ∈ (if h : t1 = EOF then nextTok roots else (t1, roots)).2,
          x.«Type» ≠ Other := by
      by_cases ht1 : t1 = EOF
      · rw [dif_pos ht1]
        cases roots with
        | nil => exact ⟨EOF_Type_ne_Other, by simp [nextTok]⟩
        | cons y r =>
          exact ⟨hroots y (by simp [nextTok]),
            fun x hx => hroots x (List.mem_cons_of_mem _ (by simpa [nextTok] using hx))⟩
      · rw [dif_neg ht1]
        exact ⟨hlt.2, hroots⟩
    refine ih res ?_ htr.1 htr.2 ?_ heq
    · rw [optList_nextIns]
      intro ins' hi tk htk
      exact hins ins' (List.mem_cons_of_mem _ hi) tk htk
    · intro x hx
      rcases List.mem_append.mp hx with hx | hx
      · by_cases hl : l ≠ EOF
        · rw [dif_pos hl] at hx
          rcases List.mem_append.mp hx with hx | hx
          · exact hout x hx
          · simp at hx
            rw [hx]
            exact hlt.1
        · rw [dif_neg hl] at hx
          exact hout x hx
      · exact hins ins (List.mem_cons_self _ _) x hx
  | case3 t roots ins inss offset out h ih =>
    intro res hins ht hroots hout heq
    rw [interleave] at heq
    rw [dif_neg h] at heq
    have hnt : (nextTok roots).1.«Type» ≠ Other ∧
        ∀ x ∈ (nextTok roots).2, x.«Type» ≠ Other := by
      cases roots with
      | nil => exact ⟨EOF_Type_ne_Other, by simp [nextTok]⟩
      | cons y r =>
        exact ⟨hroots y (by simp [nextTok]),
          fun x hx => hroots x (List.mem_cons_of_mem _ (by simpa [nextTok] using hx))⟩
    refine ih res hins hnt.1 hnt.2 ?_ heq
    intro x hx
    rcases List.mem_append.mp hx with hx | hx
    · exact hout x hx
    · simp at hx
      rw [hx]
      exact ht
  | case4 roots inss offset out =>
    intro res hins ht hroots hout heq
    rw [interleave] at heq
    simp at heq
    rw [← heq]
    exact hout
  | case5 t roots inss offset out h ih =>
    intro res hins ht hroots hout heq
    rw [interleave] at heq
    rw [dif_neg h] at heq
    have hnt : (nextTok roots).1.«Type» ≠ Other ∧
        ∀ x ∈ (nextTok roots).2, x.«Type» ≠ Other := by
      cases roots with
      | nil => exact ⟨EOF_Type_ne_Other, by simp [nextTok]⟩
      | cons y r =>
        exact ⟨hroots y (by simp [nextTok]),
          fun x hx => hroots x (List.mem_cons_of_mem _ (by simpa [nextTok] using hx))⟩
    refine ih res hins hnt.1 hnt.2 ?_ heq
    intro x hx
    rcases List.mem_append.mp hx with hx | hx
    · exact hout x hx
    · simp at hx
      rw [hx]
      exact ht

theorem token_ne_EOF_of_value {tk : Token} (h : tk.Value ≠ []) : tk ≠ EOF :=
  fun hc => h (by rw [hc]; rfl)

/-- Main correctness of the interleaving loop: if the remaining root text
(current token plus unfetched tokens) together with the pending insertions
covers the remaining original text `rem`, then the loop never panics, and
it appends to `out` exactly a token sequence whose values concatenate to
`rem`. -/
theorem interleave_covers (t : Token) (roots : List Token) (i : Option insertion)
    (inss : List insertion) (offset : Int) (out : List Token) :
    ∀ (rem : List Char) (flag : Bool),
      Covers (t.Value ++ concatVals roots) offset (optList i inss) rem flag →
      (t = EOF → roots = []) →
      EOF ∉ roots →
      (i = none → inss = []) →
      ∃ res, interleave t roots i inss offset out = some (out ++ res) ∧
        concatVals res = rem := by
  induction t, roots, i, inss, offset, out using interleave.induct with
  | case1 t roots ins inss offset out h hsp =>
    -- splitToken returned `none`: impossible under the coverage invariant
    intro rem flag hcov hT hRE hIe
    exfalso
    obtain ⟨g, rem', hstart, hg, hrem, hrest⟩ := hcov
    have hd : ins.start - offset = (g : Int) := by omega
    rw [hd] at hsp
    by_cases htE : t = EOF
    · rw [htE, splitToken_EOF] at hsp
      simp at hsp
    · have hlt : ins.start < offset + (t.Value.length : Int) := h.resolve_left htE
      have hglen : g < t.Value.length := by omega
      by_cases hg0 : g = 0
      · rw [(by omega : ((g : Nat) : Int) = 0), splitToken_zero htE] at hsp
        simp at hsp
      · rw [splitToken_interior htE (Nat.pos_of_ne_zero hg0) hglen] at hsp
        simp at hsp
  | case2 t roots ins inss offset out h l t1 hsp out2 offset2 tr ih =>
    intro rem flag hcov hT hRE hIe
    have hsp0 := hsp
    have hunf : interleave t roots (some ins) inss offset out =
        interleave tr.1 tr.2 (nextIns inss).1 (nextIns inss).2 offset2 out2 := by
      rw [interleave]
      rw [dif_pos h, hsp0]
      exact rfl
    obtain ⟨g, rem', hstart, hg, hrem, hrest⟩ := hcov
    have hd : ins.start - offset = (g : Int) := by omega
    rw [hd] at hsp
    have hglen' : g ≤ t.Value.length + (concatVals roots).length := by
      simpa using hg
    by_cases htE : t = EOF
    · -- the root cursor is exhausted
      have hroots := hT htE
      subst hroots
      subst htE
      rw [splitToken_EOF] at hsp
      simp at hsp
      obtain ⟨hl, ht1⟩ := hsp
      have hR : EOF.Value ++ concatVals ([] : List Token) = [] := rfl
      have hg0 : g = 0 := by
        simp [concatVals, EOF_Value] at hglen'
        omega
      subst hg0
      have htr : tr = (EOF, []) := by
        rw [show tr = if h : t1 = EOF then nextTok [] else (t1, []) from rfl,
          dif_pos ht1.symm]
        rfl
      have hout2 : out2 = out ++ ins.tokens := by
        rw [show out2 = (if h : l ≠ EOF then out ++ [l] else out) ++ ins.tokens from rfl,
          dif_neg (by simp [← hl])]
      have hoffset2 : offset2 = offset + (ins.«end» - ins.start) := by
        rw [show offset2 = (if h : l ≠ EOF then offset + (l.Value.length : Int) else offset) +
          (ins.«end» - ins.start) from rfl, dif_neg (by simp [← hl])]
      rcases hrest with ⟨hfl, hinss0, hend0, hdropR, hrem'0⟩ | ⟨hend, hcov'⟩
      · -- open final insertion: nothing remains afterwards
        subst hinss0
        subst hrem'0
        obtain ⟨res1, heq1, hcat1⟩ := ih ([] : List Char) true
          (by
            rw [show (nextIns ([] : List insertion)).1 = none from rfl]
            rw [htr]
            exact ⟨rfl, rfl⟩)
          (by rw [htr]; intro _; rfl)
          (by rw [htr]; simp)
          (fun _ => rfl)
        refine ⟨ins.tokens ++ res1, ?_, ?_⟩
        · rw [hunf, heq1, hout2]
          simp
        · rw [concatVals_append, hcat1, hrem]
          simp [EOF_Value, concatVals]
      · -- closed insertion: continue with the rest
        have hoff2 : offset2 = ins.«end» := by
          rw [hoffset2]
          omega
        obtain ⟨res1, heq1, hcat1⟩ := ih rem' flag
          (by
            rw [optList_nextIns, htr, hoff2]
            show Covers (EOF.Value ++ concatVals []) ins.«end» inss rem' flag
            simpa [EOF_Value, concatVals] using hcov')
          (by rw [htr]; intro _; rfl)
          (by rw [htr]; simp)
          (nextIns_none inss)
        refine ⟨ins.tokens ++ res1, ?_, ?_⟩
        · rw [hunf, heq1, hout2]
          simp
        · rw [concatVals_append, hcat1, hrem]
          simp [EOF_Value]
    · -- the current root token is real
      have hlt : ins.start < offset + (t.Value.length : Int) := h.resolve_left htE
      have hglen : g < t.Value.length := by omega
      by_cases hg0 : g = 0
      · -- the insertion starts exactly at the cursor: empty left part
        subst hg0
        rw [(by omega : ((0 : Nat) : Int) = 0), splitToken_zero htE] at hsp
        simp at hsp
        obtain ⟨hl, ht1⟩ := hsp
        have htr : tr = (t, roots) := by
          rw [show tr = if h : t1 = EOF then nextTok roots else (t1, roots) from rfl,
            dif_neg (by rw [← ht1]; exact htE), ← ht1]
        have hout2 : out2 = out ++ ins.tokens := by
          rw [show out2 = (if h : l ≠ EOF then out ++ [l] else out) ++ ins.tokens from rfl,
            dif_neg (by simp [← hl])]
        have hoffset2 : offset2 = offset + (ins.«end» - ins.start) := by
          rw [show offset2 = (if h : l ≠ EOF then offset + (l.Value.length : Int) else offset) +
            (ins.«end» - ins.start) from rfl, dif_neg (by simp [← hl])]
        rcases hrest with ⟨hfl, hinss0, hend0, hdropR, hrem'0⟩ | ⟨hend, hcov'⟩
        · -- open final insertion: the remaining root text is empty
          subst hinss0
          subst hrem'0
          obtain ⟨res1, heq1, hcat1⟩ := ih ([] : List Char) true
            (by
              rw [show (nextIns ([] : List insertion)).1 = none from rfl]
              rw [htr]
              show Covers (t.Value ++ concatVals roots) offset2 [] [] true
              exact ⟨by simpa using hdropR, rfl⟩)
            (by rw [htr]; intro hc; exact absurd hc htE)
            (by rw [htr]; exact hRE)
            (fun _ => rfl)
          refine ⟨ins.tokens ++ res1, ?_, ?_⟩
          · rw [hunf, heq1, hout2]
            simp
          · rw [concatVals_append, hcat1, hrem]
            simp
        · -- closed insertion
          have hoff2 : offset2 = ins.«end» := by
            rw [hoffset2]
            omega
          obtain ⟨res1, heq1, hcat1⟩ := ih rem' flag
            (by
              rw [optList_nextIns, htr, hoff2]
              show Covers (t.Value ++ concatVals roots) ins.«end» inss rem' flag
              simpa using hcov')
            (by rw [htr]; intro hc; exact absurd hc htE)
            (by rw [htr]; exact hRE)
            (nextIns_none inss)
          refine ⟨ins.tokens ++ res1, ?_, ?_⟩
          · rw [hunf, heq1, hout2]
            simp
          · rw [concatVals_append, hcat1, hrem]
            simp
      · -- interior split
        have hgpos : 0 < g := Nat.pos_of_ne_zero hg0
        rw [splitToken_interior htE hgpos hglen] at hsp
        simp at hsp
        obtain ⟨hl, ht1⟩ := hsp
        have hlval : l.Value = t.Value.take g := by rw [← hl]
        have ht1val : t1.Value = t.Value.drop g := by rw [← ht1]
        have hlen_take : (t.Value.take g).length = g := by
          rw [List.length_take]
          omega
        have hlE : l ≠ EOF := token_ne_EOF_of_value (by
          rw [hlval]
          intro hc
          rw [hc] at hlen_take
          simp at hlen_take
          omega)
        have ht1E : t1 ≠ EOF := token_ne_EOF_of_value (by
          rw [ht1val]
          intro hc
          have hlc := congrArg List.length hc
          simp only [List.length_drop, List.length_nil] at hlc
          omega)
        have htr : tr = (t1, roots) := by
          rw [show tr = if h : t1 = EOF then nextTok roots else (t1, roots) from rfl,
            dif_neg ht1E]
        have hout2 : out2 = (out ++ [l]) ++ ins.tokens := by
          rw [show out2 = (if h : l ≠ EOF then out ++ [l] else out) ++ ins.tokens from rfl,
            dif_pos hlE]
        have hoffset2 : offset2 = (offset + (l.Value.length : Int)) + (ins.«end» - ins.start) := by
          rw [show offset2 = (if h : l ≠ EOF then offset + (l.Value.length : Int) else offset) +
            (ins.«end» - ins.start) from rfl, dif_pos hlE]
        have hllen : l.Value.length = g := by
          rw [hlval, hlen_take]
        have hRdrop : t1.Value ++ concatVals roots =
            (t.Value ++ concatVals roots).drop g := by
          rw [ht1val, List.drop_append_of_le_length (by omega)]
        rcases hrest with ⟨hfl, hinss0, hend0, hdropR, hrem'0⟩ | ⟨hend, hcov'⟩
        · -- open case is impossible: the right split part is nonempty
          exfalso
          rw [← hRdrop] at hdropR
          have := congrArg List.length hdropR
          simp [ht1val] at this
          omega
        · have hoff2 : offset2 = ins.«end» := by
            rw [hoffset2, hllen]
            omega
          obtain ⟨res1, heq1, hcat1⟩ := ih rem' flag
            (by
              rw [optList_nextIns, htr, hoff2]
              show Covers (t1.Value ++ concatVals roots) ins.«end» inss rem' flag
              rw [hRdrop]
              exact hcov')
            (by rw [htr]; intro hc; exact absurd hc ht1E)
            (by rw [htr]; exact hRE)
            (nextIns_none inss)
          refine ⟨l :: (ins.tokens ++ res1), ?_, ?_⟩
          · rw [hunf, heq1, hout2]
            simp
          · rw [hrem]
            show l.Value ++ concatVals (ins.tokens ++ res1) = _
            rw [concatVals_append, hcat1, hlval,
              List.take_append_of_le_length (by omega)]
            simp
  | case3 t roots ins inss offset out h ih =>
    -- the current root token ends before the next insertion starts
    intro rem flag hcov hT hRE hIe
    push_neg at h
    obtain ⟨htE, hge⟩ := h
    have hunf : interleave t roots (some ins) inss offset out =
        interleave (nextTok roots).1 (nextTok roots).2 (some ins) inss
          (offset + (t.Value.length : Int)) (out ++ [t]) := by
      rw [interleave]
      rw [dif_neg (by push_neg; exact ⟨htE, hge⟩)]
    obtain ⟨g, rem', hstart, hg, hrem, hrest⟩ := hcov
    have hglen : t.Value.length ≤ g := by omega
    have hglen' : g ≤ t.Value.length + (concatVals roots).length := by
      simpa using hg
    have htake : (t.Value ++ concatVals roots).take g =
        t.Value ++ (concatVals roots).take (g - t.Value.length) := by
      rw [List.take_append_eq_append_take, List.take_of_length_le hglen]
    have hdrop : (t.Value ++ concatVals roots).drop g =
        (concatVals roots).drop (g - t.Value.length) := by
      rw [List.drop_append_eq_append_drop, List.drop_eq_nil_of_le hglen]
      simp
    obtain ⟨res1, heq1, hcat1⟩ := ih
      ((concatVals roots).take (g - t.Value.length) ++ concatVals ins.tokens ++ rem') flag
      (by
        show Covers ((nextTok roots).1.Value ++ concatVals (nextTok roots).2)
          (offset + (t.Value.length : Int)) (ins :: inss) _ flag
        rw [nextTok_val]
        refine ⟨g - t.Value.length, rem', by omega, by omega, rfl, ?_⟩
        rcases hrest with ⟨hfl, hinss0, hend0, hdropR, hrem'0⟩ | ⟨hend, hcov'⟩
        · refine Or.inl ⟨hfl, hinss0, hend0, ?_, hrem'0⟩
          rw [← hdrop]
          exact hdropR
        · refine Or.inr ⟨hend, ?_⟩
          rw [← hdrop]
          exact hcov')
      (nextTok_eof hRE)
      (nextTok_not_mem hRE)
      (fun hc => nomatch hc)
    refine ⟨t :: res1, ?_, ?_⟩
    · rw [hunf, heq1]
      simp
    · show t.Value ++ concatVals res1 = rem
      rw [hcat1, hrem, htake]
      simp
  | case4 roots inss offset out =>
    intro rem flag hcov hT hRE hIe
    have hinss := hIe rfl
    subst hinss
    have hroots := hT rfl
    subst hroots
    obtain ⟨hR, hfl⟩ := hcov
    refine ⟨[], ?_, ?_⟩
    · rw [interleave]
      simp
    · rw [← hR]
      rfl
  | case5 t roots inss offset out h ih =>
    intro rem flag hcov hT hRE hIe
    have hinss := hIe rfl
    subst hinss
    obtain ⟨hR, hfl⟩ := hcov
    have hunf : interleave t roots none [] offset out =
        interleave (nextTok roots).1 (nextTok roots).2 none []
          (offset + (t.Value.length : Int)) (out ++ [t]) := by
      rw [interleave]
      rw [dif_neg h]
    obtain ⟨res1, heq1, hcat1⟩ := ih (concatVals roots) true
      (by
        show Covers ((nextTok roots).1.Value ++ concatVals (nextTok roots).2)
          (offset + (t.Value.length : Int)) (optList none []) (concatVals roots) true
        exact ⟨nextTok_val roots, rfl⟩)
      (nextTok_eof hRE)
      (nextTok_not_mem hRE)
      (fun _ => rfl)
    refine ⟨t :: res1, ?_, ?_⟩
    · rw [hunf, heq1]
      simp
    · show t.Value ++ concatVals res1 = rem
      rw [hcat1, ← hR]

/-! ### Consequences of the extraction invariant -/

theorem Covers_closed_dropLast :
    ∀ (I : List insertion) (o : List Char) (off : Int) (rem : List Char) (flag : Bool),
      Covers o off I rem flag →
      ∀ ins ∈ I.dropLast, ins.«end» = ins.start + (sumLen ins.tokens : Int) := by
  intro I
  induction I with
  | nil =>
    intro o off rem flag h ins hins
    simp at hins
  | cons a rest ih =>
    intro o off rem flag h ins hins
    cases rest with
    | nil =>
      simp at hins
    | cons b rest' =>
      obtain ⟨g, rem', hstart, hg, hrem, hrest⟩ := h
      rcases hrest with ⟨-, habs, -⟩ | ⟨hend, hcov⟩
      · simp at habs
      · rw [List.dropLast_cons₂] at hins
        rcases List.mem_cons.mp hins with h1 | h2
        · rw [h1]
          exact hend
        · exact ih _ _ _ _ hcov ins h2

theorem Covers_closed_of_true :
    ∀ (I : List insertion) (o : List Char) (off : Int) (rem : List Char),
      Covers o off I rem true →
      ∀ ins ∈ I, ins.«end» = ins.start + (sumLen ins.tokens : Int) := by
  intro I
  induction I with
  | nil =>
    intro o off rem h ins hins
    simp at hins
  | cons a rest ih =>
    intro o off rem h ins hins
    obtain ⟨g, rem', hstart, hg, hrem, hrest⟩ := h
    rcases hrest with ⟨habs, -⟩ | ⟨hend, hcov⟩
    · simp at habs
    · rcases List.mem_cons.mp hins with h1 | h2
      · rw [h1]
        exact hend
      · exact ih _ _ _ hcov ins h2

theorem extractStep_last (s : DState) (t : Token) : (extractStep s t).last = t := by
  unfold extractStep
  split <;> rfl

theorem foldl_extractStep_last :
    ∀ (toks : List Token) (s : DState),
      (toks.foldl extractStep s).last = toks.getLastD s.last := by
  intro toks
  induction toks with
  | nil => intro s; rfl
  | cons t ts ih =>
    intro s
    rw [List.foldl_cons, ih, List.getLastD_cons, extractStep_last]

theorem extract_last (toks : List Token) : (extract toks).last = toks.getLastD EOF :=
  foldl_extractStep_last toks ⟨[], [], 0, EOF⟩

theorem modifyLast_ne_nil {f : insertion → insertion} {l : List insertion} (h : l ≠ []) :
    modifyLast f l ≠ [] := by
  intro hc
  apply h
  have hlen := length_modifyLast f l
  rw [hc] at hlen
  exact List.length_eq_zero.mp hlen.symm

/-- A state is reachable only if `insert != nil` whenever the previous
token was a language token: this is what makes the unguarded
`insert.tokens = append(...)` at line 111 of `delegate.go` safe. -/
def GoodS (s : DState) : Prop :=
  s.last = EOF ∨ s.last.«Type» = Other ∨ s.insertions ≠ []

theorem extractStep_good {s : DState} (t : Token) (h : GoodS s) : GoodS (extractStep s t) := by
  by_cases hty : t.«Type» = Other
  · refine Or.inr (Or.inl ?_)
    rw [extractStep_last]
    exact hty
  · refine Or.inr (Or.inr ?_)
    simp only [extractStep, if_neg hty]
    by_cases hg : s.last = EOF ∨ s.last.«Type» = Other
    · rw [if_pos hg]
      exact modifyLast_ne_nil (by simp)
    · rw [if_neg hg]
      push_neg at hg
      rcases h with h1 | h2 | h3
      · exact absurd h1 hg.1
      · exact absurd h2 hg.2
      · exact modifyLast_ne_nil h3

theorem foldl_insertions_nil_iff :
    ∀ (toks : List Token) (s : DState), GoodS s →
      ((toks.foldl extractStep s).insertions = [] ↔
        (s.insertions = [] ∧ ∀ tk ∈ toks, tk.«Type» = Other)) := by
  intro toks
  induction toks with
  | nil =>
    intro s hgood
    simp
  | cons t ts ih =>
    intro s hgood
    rw [List.foldl_cons, ih _ (extractStep_good t hgood)]
    constructor
    · rintro ⟨h1, h2⟩
      by_cases hty : t.«Type» = Other
      · refine ⟨?_, ?_⟩
        · simp only [extractStep, if_pos hty] at h1
          by_cases hg : s.last ≠ EOF ∧ s.insertions ≠ [] ∧ s.last.«Type» ≠ Other
          · rw [if_pos hg] at h1
            exact absurd h1 (modifyLast_ne_nil hg.2.1)
          · rw [if_neg hg] at h1
            exact h1
        · intro tk htk
          rcases List.mem_cons.mp htk with h3 | h3
          · rw [h3]
            exact hty
          · exact h2 tk h3
      · exfalso
        simp only [extractStep, if_neg hty] at h1
        by_cases hg : s.last = EOF ∨ s.last.«Type» = Other
        · rw [if_pos hg] at h1
          exact modifyLast_ne_nil (by simp) h1
        · rw [if_neg hg] at h1
          push_neg at hg
          rcases hgood with hg1 | hg2 | hg3
          · exact hg.1 hg1
          · exact hg.2 hg2
          · exact modifyLast_ne_nil hg3 h1
    · rintro ⟨h1, h2⟩
      have hty := h2 t (by simp)
      refine ⟨?_, fun tk htk => h2 tk (List.mem_cons_of_mem _ htk)⟩
      simp only [extractStep, if_pos hty]
      rw [if_neg (by simp [h1])]
      exact h1

/-- The extractor produces an empty insertion list exactly when the
language lexer classified every token as `Other`. -/
theorem extract_insertions_nil_iff (toks : List Token) :
    (extract toks).insertions = [] ↔ ∀ tk ∈ toks, tk.«Type» = Other := by
  have h := foldl_insertions_nil_iff toks ⟨[], [], 0, EOF⟩ (Or.inl rfl)
  simpa [extract] using h

/-! ### Bridge lemmas for the full tokenise pipeline -/

theorem extractStep_tokens_not_other {s : DState} (t : Token)
    (h : ∀ ins ∈ s.insertions, ∀ tk ∈ ins.tokens, tk.«Type» ≠ Other) :
    ∀ ins ∈ (extractStep s t).insertions, ∀ tk ∈ ins.tokens, tk.«Type» ≠ Other := by
  by_cases hty : t.«Type» = Other
  · simp only [extractStep, if_pos hty]
    by_cases hg : s.last ≠ EOF ∧ s.insertions ≠ [] ∧ s.last.«Type» ≠ Other
    · rw [if_pos hg]
      exact modifyLast_forall (fun ins => { ins with «end» := s.offset })
        (fun i hi => hi) _ h
    · rw [if_neg hg]
      exact h
  · simp only [extractStep, if_neg hty]
    refine modifyLast_forall _ ?_ _ ?_
    · intro i hi tk htk
      rcases List.mem_append.mp htk with hm | hm
      · exact hi tk hm
      · simp at hm
        rw [hm]
        exact hty
    · by_cases hg : s.last = EOF ∨ s.last.«Type» = Other
      · rw [if_pos hg]
        intro ins hins
        rcases List.mem_append.mp hins with hm | hm
        · exact h ins hm
        · simp at hm
          rw [hm]
          intro tk htk
          simp at htk
      · rw [if_neg hg]
        exact h

/-- Every token stored in an insertion has a type different from `Other`:
only the non-`Other` branch of the extraction loop appends tokens.  This
needs no assumption on the token stream. -/
theorem extract_tokens_not_other (toks : List Token) :
    ∀ ins ∈ (extract toks).insertions, ∀ tk ∈ ins.tokens, tk.«Type» ≠ Other := by
  suffices h : ∀ (ts : List Token) (s : DState),
      (∀ ins ∈ s.insertions, ∀ tk ∈ ins.tokens, tk.«Type» ≠ Other) →
      ∀ ins ∈ (ts.foldl extractStep s).insertions, ∀ tk ∈ ins.tokens, tk.«Type» ≠ Other by
    exact h toks ⟨[], [], 0, EOF⟩ (by simp)
  intro ts
  induction ts with
  | nil => intro s h; exact h
  | cons t ts ih =>
    intro s h
    rw [List.foldl_cons]
    exact ih _ (extractStep_tokens_not_other t h)

/-- The interleaving call of the merge path succeeds and reconstructs the
original text, given the sub-lexer contracts (the language tokens
concatenate to the text and contain no `EOF`; the root tokens concatenate
to the Other buffer and contain no `EOF`). -/
theorem merge_path_ok (ltoks rootTokens : List Token)
    (hE : ∀ tk ∈ ltoks, tk ≠ EOF)
    (hcat : concatVals rootTokens = (extract ltoks).others)
    (hRE : EOF ∉ rootTokens) :
    ∃ res, interleave (nextTok rootTokens).1 (nextTok rootTokens).2
        (nextIns (extract ltoks).insertions).1 (nextIns (extract ltoks).insertions).2
        0 [] = some res ∧ concatVals res = concatVals ltoks := by
  have hinv := extract_EInv ltoks hE
  have hcov : ∃ flag, Covers (extract ltoks).others 0 (extract ltoks).insertions
      (concatVals ltoks) flag := by
    rcases hinv.split3 with ⟨-, hi, ho⟩ | ⟨-, -, hc⟩ | ⟨-, -, hc⟩
    · exact ⟨true, by rw [hi]; exact ⟨ho, rfl⟩⟩
    · exact ⟨true, hc⟩
    · exact ⟨false, hc⟩
  obtain ⟨flag, hcov⟩ := hcov
  obtain ⟨res, h1, h2⟩ := interleave_covers (nextTok rootTokens).1 (nextTok rootTokens).2
    (nextIns (extract ltoks).insertions).1 (nextIns (extract ltoks).insertions).2 0 []
    (concatVals ltoks) flag
    (by rw [optList_nextIns, nextTok_val, hcat]; exact hcov)
    (nextTok_eof hRE) (nextTok_not_mem hRE) (nextIns_none _)
  exact ⟨res, by simpa using h1, h2⟩

theorem mem_of_not_mem_EOF {ts : List Token} (h : EOF ∉ ts) : ∀ tk ∈ ts, tk ≠ EOF :=
  fun tk htk hc => h (hc ▸ htk)

theorem tokeniseCore_error
    {tokeniseFn tokenizeRootFn : List Char → Except Err (List Token × OriginalLenIterator)}
    {rootCoalesced : List Char → Except Err (List Token)} {text : List Char} {e : Err}
    (hL : tokeniseFn text = .error e) :
    tokeniseCore tokeniseFn tokenizeRootFn rootCoalesced text = some (.error e) := by
  unfold tokeniseCore
  rw [hL]

theorem tokeniseCore_ok
    {tokeniseFn tokenizeRootFn : List Char → Except Err (List Token × OriginalLenIterator)}
    {rootCoalesced : List Char → Except Err (List Token)} {text : List Char}
    {ts : List Token} {oit0 : OriginalLenIterator}
    (hL : tokeniseFn text = .ok (ts, oit0)) :
    tokeniseCore tokeniseFn tokenizeRootFn rootCoalesced text =
      (if (extract ts).insertions = [] then some (tokenizeRootFn text)
       else
        match rootCoalesced (extract ts).others with
        | .error e => some (.error e)
        | .ok rootTokens =>
          (interleave (nextTok rootTokens).1 (nextTok rootTokens).2
              (nextIns (extract ts).insertions).1 (nextIns (extract ts).insertions).2
              0 []).map fun out => .ok (out, oit0)) := by
  unfold tokeniseCore
  rw [hL]

/-- Reconstruction for the shared core `tokeniseCore`, for both entry
points at once. -/
theorem tokeniseCore_reconstruction
    (tokeniseFn tokenizeRootFn : List Char → Except Err (List Token × OriginalLenIterator))
    (rootCoalesced : List Char → Except Err (List Token))
    (text : List Char)
    (hlang : ∀ ts oit, tokeniseFn text = .ok (ts, oit) → concatVals ts = text ∧ EOF ∉ ts)
    (hroot : ∀ o ts, rootCoalesced o = .ok ts → concatVals ts = o ∧ EOF ∉ ts)
    (hfast : ∀ ts oit, tokenizeRootFn text = .ok (ts, oit) → concatVals ts = text) :
    ∀ out oit, tokeniseCore tokeniseFn tokenizeRootFn rootCoalesced text =
      some (.ok (out, oit)) → concatVals out = text := by
  intro out oit hres
  cases hL : tokeniseFn text with
  | error e =>
    rw [tokeniseCore_error hL] at hres
    simp at hres
  | ok p =>
    obtain ⟨ts, oit0⟩ := p
    rw [tokeniseCore_ok hL] at hres
    obtain ⟨hcat, hEOF⟩ := hlang ts oit0 hL
    by_cases hnil : (extract ts).insertions = []
    · rw [if_pos hnil] at hres
      simp at hres
      exact hfast out oit hres
    · rw [if_neg hnil] at hres
      cases hR : rootCoalesced (extract ts).others with
      | error e =>
        rw [hR] at hres
        simp at hres
      | ok rootTokens =>
        rw [hR] at hres
        simp only [] at hres
        obtain ⟨hrcat, hrEOF⟩ := hroot _ _ hR
        obtain ⟨res, hI, hC⟩ := merge_path_ok ts rootTokens
          (mem_of_not_mem_EOF hEOF) hrcat hrEOF
        rw [hI] at hres
        simp at hres
        rw [← hres.1, hC, hcat]

/-- The core never panics, given the sub-lexer contracts. -/
theorem tokeniseCore_ne_none
    (tokeniseFn tokenizeRootFn : List Char → Except Err (List Token × OriginalLenIterator))
    (rootCoalesced : List Char → Except Err (List Token))
    (text : List Char)
    (hlang : ∀ ts oit, tokeniseFn text = .ok (ts, oit) → concatVals ts = text ∧ EOF ∉ ts)
    (hroot : ∀ o ts, rootCoalesced o = .ok ts → concatVals ts = o ∧ EOF ∉ ts) :
    tokeniseCore tokeniseFn tokenizeRootFn rootCoalesced text ≠ none := by
  cases hL : tokeniseFn text with
  | error e =>
    rw [tokeniseCore_error hL]
    simp
  | ok p =>
    obtain ⟨ts, oit0⟩ := p
    rw [tokeniseCore_ok hL]
    obtain ⟨hcat, hEOF⟩ := hlang ts oit0 hL
    by_cases hnil : (extract ts).insertions = []
    · rw [if_pos hnil]
      simp
    · rw [if_neg hnil]
      cases hR : rootCoalesced (extract ts).others with
      | error e => simp
      | ok rootTokens =>
        obtain ⟨hrcat, hrEOF⟩ := hroot _ _ hR
        obtain ⟨res, hI, hC⟩ := merge_path_ok ts rootTokens
          (mem_of_not_mem_EOF hEOF) hrcat hrEOF
        show (interleave (nextTok rootTokens).1 (nextTok rootTokens).2
            (nextIns (extract ts).insertions).1 (nextIns (extract ts).insertions).2
            0 []).map (fun out => Except.ok (out, oit0)) ≠ none
        rw [hI]
        simp

/-- No `EOF` in the output of the shared core, given `EOF`-free sub-lexer
outputs (the shape the library token collector always produces). -/
theorem tokeniseCore_no_EOF
    (tokeniseFn tokenizeRootFn : List Char → Except Err (List Token × OriginalLenIterator))
    (rootCoalesced : List Char → Except Err (List Token))
    (text : List Char)
    (hlang : ∀ ts oit, tokeniseFn text = .ok (ts, oit) → EOF ∉ ts)
    (hfast : ∀ ts oit, tokenizeRootFn text = .ok (ts, oit) → EOF ∉ ts) :
    ∀ out oit, tokeniseCore tokeniseFn tokenizeRootFn rootCoalesced text =
      some (.ok (out, oit)) → EOF ∉ out := by
  intro out oit hres
  cases hL : tokeniseFn text with
  | error e =>
    rw [tokeniseCore_error hL] at hres
    simp at hres
  | ok p =>
    obtain ⟨ts, oit0⟩ := p
    rw [tokeniseCore_ok hL] at hres
    have hEOF := hlang ts oit0 hL
    by_cases hnil : (extract ts).insertions = []
    · rw [if_pos hnil] at hres
      simp at hres
      exact hfast out oit hres
    · rw [if_neg hnil] at hres
      cases hR : rootCoalesced (extract ts).others with
      | error e =>
        rw [hR] at hres
        simp at hres
      | ok rootTokens =>
        rw [hR] at hres
        simp only [] at hres
        cases hI : interleave (nextTok rootTokens).1 (nextTok rootTokens).2
            (nextIns (extract ts).insertions).1 (nextIns (extract ts).insertions).2
            0 [] with
        | none =>
          rw [hI] at hres
          simp at hres
        | some res =>
          rw [hI] at hres
          simp at hres
          intro hmem
          rw [← hres.1] at hmem
          exact interleave_no_EOF (nextTok rootTokens).1 (nextTok rootTokens).2
            (nextIns (extract ts).insertions).1 (nextIns (extract ts).insertions).2
            0 [] res
            (by
              rw [optList_nextIns]
              intro ins hins tk htk
              exact ((extract_EInv ts (mem_of_not_mem_EOF hEOF)).toksOk ins hins tk htk).1)
            (by simp) hI EOF hmem rfl

/-- No `Other`-typed token in the output of the shared core, provided the
root lexer itself never emits `Other`-typed tokens (insertion tokens are
never `Other` by construction). -/
theorem tokeniseCore_no_Other
    (tokeniseFn tokenizeRootFn : List Char → Except Err (List Token × OriginalLenIterator))
    (rootCoalesced : List Char → Except Err (List Token))
    (text : List Char)
    (hroot : ∀ o ts, rootCoalesced o = .ok ts → ∀ x ∈ ts, x.«Type» ≠ Other)
    (hfast : ∀ ts oit, tokenizeRootFn text = .ok (ts, oit) → ∀ x ∈ ts, x.«Type» ≠ Other) :
    ∀ out oit, tokeniseCore tokeniseFn tokenizeRootFn rootCoalesced text =
      some (.ok (out, oit)) → ∀ x ∈ out, x.«Type» ≠ Other := by
  intro out oit hres
  cases hL : tokeniseFn text with
  | error e =>
    rw [tokeniseCore_error hL] at hres
    simp at hres
  | ok p =>
    obtain ⟨ts, oit0⟩ := p
    rw [tokeniseCore_ok hL] at hres
    by_cases hnil : (extract ts).insertions = []
    · rw [if_pos hnil] at hres
      simp at hres
      exact hfast out oit hres
    · rw [if_neg hnil] at hres
      cases hR : rootCoalesced (extract ts).others with
      | error e =>
        rw [hR] at hres
        simp at hres
      | ok rootTokens =>
        rw [hR] at hres
        simp only [] at hres
        cases hI : interleave (nextTok rootTokens).1 (nextTok rootTokens).2
            (nextIns (extract ts).insertions).1 (nextIns (extract ts).insertions).2
            0 [] with
        | none =>
          rw [hI] at hres
          simp at hres
        | some res =>
          rw [hI] at hres
          simp at hres
          have hro := hroot _ _ hR
          have hpair : (nextTok rootTokens).1.«Type» ≠ Other ∧
              ∀ x ∈ (nextTok rootTokens).2, x.«Type» ≠ Other := by
            cases rootTokens with
            | nil => exact ⟨EOF_Type_ne_Other, by simp [nextTok]⟩
            | cons y r =>
              exact ⟨hro y (by simp [nextTok]),
                fun x hx => hro x (List.mem_cons_of_mem _ (by simpa [nextTok] using hx))⟩
          intro x hx
          rw [← hres.1] at hx
          exact interleave_no_Other (nextTok rootTokens).1 (nextTok rootTokens).2
            (nextIns (extract ts).insertions).1 (nextIns (extract ts).insertions).2
            0 [] res
            (by
              rw [optList_nextIns]
              exact extract_tokens_not_other ts)
            hpair.1 hpair.2 (by simp) hI x hx

/-! ### The claims -/

theorem map_pair_ok {f : List Char → Except Err (List Token)} {txt : List Char}
    {ts : List Token} {oit : OriginalLenIterator}
    (h : (f txt).map (fun l => (l, OriginalLenIterator.empty)) = .ok (ts, oit)) :
    f txt = .ok ts := by
  cases hf : f txt with
  | error e =>
    rw [hf] at h
    simp [Except.map] at h
  | ok l =>
    rw [hf] at h
    simp [Except.map] at h
    rw [h.1]

/-- C1: for every input text and every pair of sub-tokenizers (each
satisfying the lexer contract: the collected tokens concatenate to the
tokenized input and never contain the `EOF` sentinel), concatenating the
values of the tokens produced by the delegating lexer's `Tokenise` equals
the original input text exactly. -/
theorem C1_reconstruction
    (langLex rootCoalesced rootPlain : List Char → Except Err (List Token))
    (text : List Char)
    (hlang : ∀ ts, langLex text = .ok ts → concatVals ts = text ∧ EOF ∉ ts)
    (hroot : ∀ o ts, rootCoalesced o = .ok ts → concatVals ts = o ∧ EOF ∉ ts)
    (hfast : ∀ ts, rootPlain text = .ok ts → concatVals ts = text) :
    ∀ out, dTokenise langLex rootCoalesced rootPlain text = some (.ok out) →
      concatVals out = text := by
  intro out hres
  unfold dTokenise at hres
  cases hC : tokeniseCore (fun txt => (langLex txt).map fun l => (l, OriginalLenIterator.empty))
      (fun txt => (rootPlain txt).map fun l => (l, OriginalLenIterator.empty))
      rootCoalesced text with
  | none =>
    rw [hC] at hres
    simp at hres
  | some r =>
    rw [hC] at hres
    simp at hres
    cases r with
    | error e => simp [Except.map] at hres
    | ok p =>
      obtain ⟨ts1, oit1⟩ := p
      simp [Except.map] at hres
      rw [← hres]
      exact tokeniseCore_reconstruction _ _ _ _
        (fun ts oit h => hlang ts (map_pair_ok h))
        hroot
        (fun ts oit h => hfast ts (map_pair_ok h))
        ts1 oit1 hC

/-- C10: the merge loop never panics — every `splitToken` call made by the
interleaver receives an in-range offset — whenever the sub-tokenizers
satisfy the lexer contract, so `Tokenise` always returns a value (`none`
models the Go out-of-range slice panic). -/
theorem C10_no_panic
    (langLex rootCoalesced rootPlain : List Char → Except Err (List Token))
    (text : List Char)
    (hlang : ∀ ts, langLex text = .ok ts → concatVals ts = text ∧ EOF ∉ ts)
    (hroot : ∀ o ts, rootCoalesced o = .ok ts → concatVals ts = o ∧ EOF ∉ ts) :
    dTokenise langLex rootCoalesced rootPlain text ≠ none := by
  unfold dTokenise
  intro hc
  cases hC : tokeniseCore (fun txt => (langLex txt).map fun l => (l, OriginalLenIterator.empty))
      (fun txt => (rootPlain txt).map fun l => (l, OriginalLenIterator.empty))
      rootCoalesced text with
  | none =>
    exact tokeniseCore_ne_none _ _ _ _
      (fun ts oit h => hlang ts (map_pair_ok h)) hroot hC
  | some r =>
    rw [hC] at hc
    simp at hc

/-- C9: the `EOF` sentinel is never an element of the merged output: the
loop discards empty split parts and exhausted-cursor sentinels instead of
appending them.  The sub-tokenizer outputs are `EOF`-free, as the library
collector stops at the first `EOF`. -/
theorem C9_no_EOF_leakage
    (langLex rootCoalesced rootPlain : List Char → Except Err (List Token))
    (text : List Char)
    (hlang : ∀ ts, langLex text = .ok ts → EOF ∉ ts)
    (hfast : ∀ ts, rootPlain text = .ok ts → EOF ∉ ts) :
    ∀ out, dTokenise langLex rootCoalesced rootPlain text = some (.ok out) →
      EOF ∉ out := by
  intro out hres
  unfold dTokenise at hres
  cases hC : tokeniseCore (fun txt => (langLex txt).map fun l => (l, OriginalLenIterator.empty))
      (fun txt => (rootPlain txt).map fun l => (l, OriginalLenIterator.empty))
      rootCoalesced text with
  | none =>
    rw [hC] at hres
    simp at hres
  | some r =>
    rw [hC] at hres
    simp at hres
    cases r with
    | error e => simp [Except.map] at hres
    | ok p =>
      obtain ⟨ts1, oit1⟩ := p
      simp [Except.map] at hres
      rw [← hres]
      exact tokeniseCore_no_EOF _ _ _ _
        (fun ts oit h => hlang ts (map_pair_ok h))
        (fun ts oit h => hfast ts (map_pair_ok h))
        ts1 oit1 hC

/-- C4 (amended): if the root tokenizer itself never emits `Other`-typed
tokens, then no token of the merged output has the `Other` type; every
`Other` span of the language tokenizer is replaced by the root
retokenization, and insertion tokens are non-`Other` by construction.  The
unamended claim fails because the root tokenizer may emit `Other` tokens,
which the merge passes through untouched (see `C4_counterexample`). -/
theorem C4_no_Other_amended
    (langLex rootCoalesced rootPlain : List Char → Except Err (List Token))
    (text : List Char)
    (hroot : ∀ o ts, rootCoalesced o = .ok ts → ∀ x ∈ ts, x.«Type» ≠ Other)
    (hfast : ∀ ts, rootPlain text = .ok ts → ∀ x ∈ ts, x.«Type» ≠ Other) :
    ∀ out, dTokenise langLex rootCoalesced rootPlain text = some (.ok out) →
      ∀ x ∈ out, x.«Type» ≠ Other := by
  intro out hres
  unfold dTokenise at hres
  cases hC : tokeniseCore (fun txt => (langLex txt).map fun l => (l, OriginalLenIterator.empty))
      (fun txt => (rootPlain txt).map fun l => (l, OriginalLenIterator.empty))
      rootCoalesced text with
  | none =>
    rw [hC] at hres
    simp at hres
  | some r =>
    rw [hC] at hres
    simp at hres
    cases r with
    | error e => simp [Except.map] at hres
    | ok p =>
      obtain ⟨ts1, oit1⟩ := p
      simp [Except.map] at hres
      rw [← hres]
      exact tokeniseCore_no_Other _ _ _ _
        hroot
        (fun ts oit h => hfast ts (map_pair_ok h))
        ts1 oit1 hC

/-- C5: when the language tokenizer (after coalescing) classifies the
whole input as `Other` — equivalently, the extractor's insertion list is
empty — the delegating lexer short-circuits to the root tokenizer applied
directly to the original text, and returns its result unchanged. -/
theorem C5_fast_path_equivalence
    (langLex rootCoalesced rootPlain : List Char → Except Err (List Token))
    (text : List Char) (ts : List Token)
    (hL : langLex text = .ok ts) :
    ((extract ts).insertions = [] ↔ ∀ tk ∈ ts, tk.«Type» = Other) ∧
    ((∀ tk ∈ ts, tk.«Type» = Other) →
      dTokenise langLex rootCoalesced rootPlain text = some (rootPlain text)) := by
  refine ⟨extract_insertions_nil_iff ts, ?_⟩
  intro hall
  have hnil := (extract_insertions_nil_iff ts).mpr hall
  unfold dTokenise
  rw [tokeniseCore_ok (show (fun txt => (langLex txt).map fun l =>
      (l, OriginalLenIterator.empty)) text = .ok (ts, OriginalLenIterator.empty) by
    simp only []
    rw [hL]
    rfl)]
  rw [if_pos hnil]
  cases hf : rootPlain text with
  | error e => simp [Except.map, hf]
  | ok l => simp [Except.map, hf]

/-- C8: a failure of either sub-tokenizer invocation is returned unchanged
(no retry, no recovery, no wrapping), with no token output (`Except.error`
carries no tokens, modelling Go's `nil` iterator), both for the language
pass and for the root pass over the Other buffer. -/
theorem C8_error_propagation
    (langLex rootCoalesced rootPlain : List Char → Except Err (List Token))
    (text : List Char) (e : Err) :
    (langLex text = .error e →
      dTokenise langLex rootCoalesced rootPlain text = some (.error e)) ∧
    (∀ ts, langLex text = .ok ts → (extract ts).insertions ≠ [] →
      rootCoalesced (extract ts).others = .error e →
      dTokenise langLex rootCoalesced rootPlain text = some (.error e)) := by
  constructor
  · intro hL
    unfold dTokenise
    rw [tokeniseCore_error (show (fun txt => (langLex txt).map fun l =>
        (l, OriginalLenIterator.empty)) text = .error e by
      simp only []
      rw [hL]
      rfl)]
    simp [Except.map]
  · intro ts hL hnil hR
    unfold dTokenise
    rw [tokeniseCore_ok (show (fun txt => (langLex txt).map fun l =>
        (l, OriginalLenIterator.empty)) text = .ok (ts, OriginalLenIterator.empty) by
      simp only []
      rw [hL]
      rfl)]
    rw [if_neg hnil, hR]
    simp [Except.map]

/-- C2 (amended): when the root lexer does not implement the
`TokeniserWithOriginalLen` capability, `TokeniseWithOriginalLen` fails
with the capability error — but only on the fast path, i.e. when the
extractor's insertion list is empty.  On the merge path the capability is
never checked: the root pass uses plain tokenization and the call succeeds
(see `C2_counterexample`), so the unamended "for every input text" claim
is false. -/
theorem C2_unsupported_capability_amended
    (langLexWOL : List Char → Except Err (List Token × OriginalLenIterator))
    (rootCoalesced : List Char → Except Err (List Token))
    (text : List Char) (ts : List Token) (oit : OriginalLenIterator)
    (hL : langLexWOL text = .ok (ts, oit))
    (hnil : (extract ts).insertions = []) :
    dTokeniseWithOriginalLen langLexWOL rootCoalesced none text =
      some (.error unsupportedCapabilityMsg) := by
  unfold dTokeniseWithOriginalLen
  rw [tokeniseCore_ok hL, if_pos hnil]

theorem splitToken_length {t : Token} (htE : t ≠ EOF) (hl : t.Value.length ≠ 0) :
    splitToken t (t.Value.length : Int) = some (t, EOF) := by
  simp only [splitToken, if_neg htE]
  rw [if_neg (by exact_mod_cast hl)]
  simp

/-- C6 (amended): `splitToken` on a non-`EOF` token `t` and an offset
`o ≤ len(t.Value)` yields: at `o = 0` an `EOF` left part and `t` as right
part; at `o = len(t.Value)` with `0 < o` the whole token left and `EOF`
right; at an interior offset two tokens of `t`'s type carrying
`t.Value[:o]` and `t.Value[o:]`.  The unamended claim is contradictory for
an empty-valued non-`EOF` token at `o = 0 = len`, where the code takes the
`offset == 0` branch (see `C6_counterexample`). -/
theorem C6_splitToken_amended (t : Token) (o : Nat) (htE : t ≠ EOF)
    (ho : o ≤ t.Value.length) :
    (o = 0 → splitToken t (o : Int) = some (EOF, t)) ∧
    (o = t.Value.length → 0 < o → splitToken t (o : Int) = some (t, EOF)) ∧
    (0 < o → o < t.Value.length → splitToken t (o : Int) =
      some (⟨t.«Type», t.Value.take o⟩, ⟨t.«Type», t.Value.drop o⟩)) := by
  refine ⟨?_, ?_, ?_⟩
  · intro h0
    rw [h0, Nat.cast_zero]
    exact splitToken_zero htE
  · intro hlen hpos
    rw [hlen]
    exact splitToken_length htE (by omega)
  · intro hpos hlt
    exact splitToken_interior htE hpos hlt

/-- C3 (amended): the extractor's insertion list has nondecreasing
`start`s; every insertion except possibly the last covers exactly
`end - start` characters; and when the token stream ends with an `Other`
token the last insertion does too.  The unamended "every insertion" claim
fails when the stream ends inside a language run, where the final
insertion keeps its zero-value `end = 0` (see `C3_counterexample`). -/
theorem C3_insertions_amended (langToks : List Token)
    (hE : ∀ tk ∈ langToks, tk ≠ EOF) :
    List.Chain' (fun a b : insertion => a.start ≤ b.start) (extract langToks).insertions ∧
    (∀ ins ∈ (extract langToks).insertions.dropLast,
      (sumLen ins.tokens : Int) = ins.«end» - ins.start) ∧
    ((langToks.getLastD EOF).«Type» = Other →
      ∀ ins ∈ (extract langToks).insertions,
        (sumLen ins.tokens : Int) = ins.«end» - ins.start) := by
  have hinv := extract_EInv langToks hE
  refine ⟨?_, ?_, ?_⟩
  · exact (List.chain'_map insertion.start).mp hinv.sorted.chain'
  · intro ins hins
    rcases hinv.split3 with ⟨-, hi, -⟩ | ⟨-, -, hc⟩ | ⟨-, -, hc⟩
    · rw [hi] at hins
      simp at hins
    · have := Covers_closed_dropLast _ _ _ _ _ hc ins hins
      omega
    · have := Covers_closed_dropLast _ _ _ _ _ hc ins hins
      omega
  · intro hlast ins hins
    have hlast2 : (extract langToks).last.«Type» = Other := by
      rw [extract_last]
      exact hlast
    rcases hinv.split3 with ⟨-, hi, -⟩ | ⟨-, -, hc⟩ | ⟨-, hne, -⟩
    · rw [hi] at hins
      simp at hins
    · have := Covers_closed_of_true _ _ _ _ hc ins hins
      omega
    · exact absurd hlast2 hne

/-- C7: the delegating wrapper forwards each capability to the right
sub-tokenizer: `AnalyseText` to the root, `SetRegistry` to both,
`SetAnalyser` to the root only (the language lexer untouched), and
`Config` to the language lexer; the setters return the wrapper itself
(characterized componentwise, since the pure model returns the updated
wrapper). -/
theorem C7_wrapper_forwarding {L Score Analyser Registry Cfg : Type}
    (ops : LexerOps L Score Analyser Registry Cfg) (d : delegatingLexer L)
    (text : List Char) (a : Analyser) (r : Registry) :
    d.AnalyseText ops text = ops.analyseText d.root text ∧
    (d.SetRegistry ops r).root = ops.setRegistry d.root r ∧
    (d.SetRegistry ops r).language = ops.setRegistry d.language r ∧
    (d.SetAnalyser ops a).root = ops.setAnalyser d.root a ∧
    (d.SetAnalyser ops a).language = d.language ∧
    d.Config ops = ops.config d.language :=
  ⟨rfl, rfl, rfl, rfl, rfl, rfl⟩

/-! ### Concrete sub-lexers for counterexamples and witnesses -/

/-- A concrete language lexer for the text `"ba"`: a keyword token for
`'b'` followed by an `Other` token for `'a'`. -/
def wLang : List Char → Except Err (List Token) :=
  fun _ => .ok [⟨1000, ['b']⟩, ⟨Other, ['a']⟩]

/-- A concrete root lexer: one token of type `2000` covering the whole
input (satisfies the lexer contract on every input). -/
def wRoot : List Char → Except Err (List Token) :=
  fun o => .ok [⟨2000, o⟩]

/-- Same shape as `wRoot`, used for the plain (fast-path) root calls. -/
def wFast : List Char → Except Err (List Token) :=
  fun s => .ok [⟨2000, s⟩]

/-- A root lexer that marks its whole input as `Other`. -/
def wRootOther : List Char → Except Err (List Token) :=
  fun o => .ok [⟨Other, o⟩]

/-- A language lexer that classifies everything as `Other`. -/
def wLangO : List Char → Except Err (List Token) :=
  fun _ => .ok [⟨Other, ['a']⟩]

/-- A language lexer that always fails. -/
def wLangErr : List Char → Except Err (List Token) :=
  fun _ => .error "tokenization failed"

/-- A length-preserving language lexer that classifies everything as
`Other`. -/
def wLangOW : List Char → Except Err (List Token × OriginalLenIterator) :=
  fun _ => .ok ([⟨Other, ['a']⟩], OriginalLenIterator.empty)

theorem wLang_contract : ∀ ts, wLang ['b', 'a'] = .ok ts →
    concatVals ts = ['b', 'a'] ∧ EOF ∉ ts := by
  intro ts h
  simp [wLang] at h
  rw [← h]
  exact ⟨rfl, by decide⟩

theorem wRoot_contract : ∀ o ts, wRoot o = .ok ts → concatVals ts = o ∧ EOF ∉ ts := by
  intro o ts h
  simp [wRoot] at h
  rw [← h]
  refine ⟨by simp [concatVals], ?_⟩
  simp [EOF, EOFType, Other]

theorem wFast_contract : ∀ o ts, wFast o = .ok ts → concatVals ts = o ∧ EOF ∉ ts := by
  intro o ts h
  simp [wFast] at h
  rw [← h]
  refine ⟨by simp [concatVals], ?_⟩
  simp [EOF, EOFType, Other]

theorem wRoot_not_other : ∀ o ts, wRoot o = .ok ts → ∀ x ∈ ts, x.«Type» ≠ Other := by
  intro o ts h x hx
  simp [wRoot] at h
  rw [← h] at hx
  simp at hx
  rw [hx]
  show (2000 : TokenType) ≠ Other
  decide

theorem wFast_not_other : ∀ o ts, wFast o = .ok ts → ∀ x ∈ ts, x.«Type» ≠ Other := by
  intro o ts h x hx
  simp [wFast] at h
  rw [← h] at hx
  simp at hx
  rw [hx]
  show (2000 : TokenType) ≠ Other
  decide

theorem wMerge_eval : dTokenise wLang wRoot wFast ['b', 'a'] =
    some (.ok [⟨1000, ['b']⟩, ⟨2000, ['a']⟩]) := by
  simp [dTokenise, tokeniseCore, wLang, wRoot, wFast, extract, extractStep, modifyLast,
    interleave, splitToken, nextTok, nextIns, EOF, EOFType, Other, Token.Clone, Except.map]

/-! ### Counterexamples and witnesses -/

theorem C1_reconstruction_witness :
    concatVals [⟨1000, ['b']⟩, ⟨2000, ['a']⟩] = ['b', 'a'] :=
  C1_reconstruction wLang wRoot wFast ['b', 'a'] wLang_contract wRoot_contract
    (fun ts h => (wFast_contract ['b', 'a'] ts h).1)
    [⟨1000, ['b']⟩, ⟨2000, ['a']⟩] wMerge_eval

/-- C2, counterexample to the unamended claim: the root lexer lacks the
capability (`rootWOL = none`), the language lexer produces a non-`Other`
token on `"ba"`, and `TokeniseWithOriginalLen` silently succeeds with
plain root tokenization instead of returning the capability error. -/
theorem C2_counterexample :
    dTokeniseWithOriginalLen
      (fun _ => .ok ([⟨1000, ['b']⟩, ⟨Other, ['a']⟩], OriginalLenIterator.empty))
      (fun _ => .ok [⟨2000, ['a']⟩]) none ['b', 'a'] =
      some (.ok ([⟨1000, ['b']⟩, ⟨2000, ['a']⟩], OriginalLenIterator.empty)) ∧
    (Except.ok ([⟨1000, ['b']⟩, ⟨2000, ['a']⟩], OriginalLenIterator.empty) :
      Except Err (List Token × OriginalLenIterator)) ≠ .error unsupportedCapabilityMsg := by
  constructor
  · simp [dTokeniseWithOriginalLen, tokeniseCore, extract, extractStep, modifyLast,
      interleave, splitToken, nextTok, nextIns, EOF, EOFType, Other, Token.Clone, Except.map]
  · simp

theorem C2_unsupported_capability_witness :
    dTokeniseWithOriginalLen wLangOW wRoot none ['a'] =
      some (.error unsupportedCapabilityMsg) :=
  C2_unsupported_capability_amended wLangOW wRoot ['a'] [⟨Other, ['a']⟩]
    OriginalLenIterator.empty rfl rfl

/-- C3, counterexample to the unamended claim: when the token stream ends
with a language token, the final insertion keeps `end = 0`, so its tokens
cover `1` character while `end - start = -1`. -/
theorem C3_counterexample :
    (extract [⟨Other, ['a']⟩, ⟨1000, ['b']⟩]).insertions = [⟨1, 0, [⟨1000, ['b']⟩]⟩] ∧
    ¬(∀ ins ∈ (extract [⟨Other, ['a']⟩, ⟨1000, ['b']⟩]).insertions,
        (sumLen ins.tokens : Int) = ins.«end» - ins.start) :=
  ⟨rfl, by decide⟩

theorem C3_insertions_witness :
    (sumLen [(⟨1000, ['b']⟩ : Token)] : Int) =
      (⟨0, 1, [⟨1000, ['b']⟩]⟩ : insertion).«end» -
        (⟨0, 1, [⟨1000, ['b']⟩]⟩ : insertion).start :=
  (C3_insertions_amended [⟨1000, ['b']⟩, ⟨Other, ['a']⟩, ⟨1001, ['c']⟩] (by decide)).2.1
    ⟨0, 1, [⟨1000, ['b']⟩]⟩ (by decide)

/-- C4, counterexample to the unamended claim: a root lexer that emits an
`Other`-typed token for the Other buffer; the merged output then contains
a token of type `Other`. -/
theorem C4_counterexample :
    dTokenise wLang wRootOther wFast ['b', 'a'] =
      some (.ok [⟨1000, ['b']⟩, ⟨Other, ['a']⟩]) ∧
    (⟨Other, ['a']⟩ : Token).«Type» = Other := by
  constructor
  · simp [dTokenise, tokeniseCore, wLang, wRootOther, wFast, extract, extractStep,
      modifyLast, interleave, splitToken, nextTok, nextIns, EOF, EOFType, Other,
      Token.Clone, Except.map]
  · rfl

theorem C4_no_Other_witness : (⟨2000, ['a']⟩ : Token).«Type» ≠ Other :=
  C4_no_Other_amended wLang wRoot wFast ['b', 'a'] wRoot_not_other
    (fun ts h => wFast_not_other ['b', 'a'] ts h)
    [⟨1000, ['b']⟩, ⟨2000, ['a']⟩] wMerge_eval
    ⟨2000, ['a']⟩ (by simp)

theorem C5_fast_path_witness :
    dTokenise wLangO wRoot wFast ['a'] = some (wFast ['a']) :=
  (C5_fast_path_equivalence wLangO wRoot wFast ['a'] [⟨Other, ['a']⟩] rfl).2 (by decide)

/-- C6, counterexample to the unamended claim: for a non-`EOF` token with
empty value, the offset `0` equals the value length, and the code returns
an `EOF` left part with the token as right part — not, as the
`o = len(t.Value)` clause of the claim demands, the token as left part
with an `EOF` right part. -/
theorem C6_counterexample :
    splitToken ⟨1000, []⟩ ((([] : List Char).length : Nat) : Int) =
      some (EOF, ⟨1000, []⟩) ∧
    (⟨1000, []⟩ : Token) ≠ EOF ∧
    splitToken ⟨1000, []⟩ ((([] : List Char).length : Nat) : Int) ≠
      some (⟨1000, []⟩, EOF) := by
  decide

theorem C6_splitToken_witness :
    splitToken ⟨1000, ['x', 'y']⟩ ((1 : Nat) : Int) =
      some (⟨1000, ['x']⟩, ⟨1000, ['y']⟩) := by
  have h := (C6_splitToken_amended ⟨1000, ['x', 'y']⟩ 1 (by decide) (by decide)).2.2
    (by decide) (by decide)
  simpa using h

theorem C8_error_propagation_witness :
    dTokenise wLangErr wRoot wFast ['b', 'a'] = some (.error "tokenization failed") :=
  (C8_error_propagation wLangErr wRoot wFast ['b', 'a'] "tokenization failed").1 rfl

theorem C9_no_EOF_leakage_witness :
    EOF ∉ [(⟨1000, ['b']⟩ : Token), ⟨2000, ['a']⟩] :=
  C9_no_EOF_leakage wLang wRoot wFast ['b', 'a']
    (fun ts h => (wLang_contract ts h).2)
    (fun ts h => (wFast_contract ['b', 'a'] ts h).2)
    [⟨1000, ['b']⟩, ⟨2000, ['a']⟩] wMerge_eval

theorem C10_no_panic_witness : dTokenise wLang wRoot wFast ['b', 'a'] ≠ none :=
  C10_no_panic wLang wRoot wFast ['b', 'a'] wLang_contract wRoot_contract

end Chroma
